import Mathlib

/-!
# xlabs-launcher file updater

A shallow embedding of `src/launcher/updater/file_updater.cpp`.

* Strings (`std::string`) are Lean `String`s; a file's contents are a `String`
  whose `length` stands for `std::string::size()`.
* The file system is an association list from file names to nodes.  The
  collaborators that the updater only calls (`utils::io`, `utils::http`,
  `utils::cryptography`, `std::filesystem`) are given by small models or by
  parameters collected in `Env`.
* Stateful member functions pass an explicit `World` (disk, listener log,
  relaunch counter) and return the exception they raise, if any.
* The worker pool of `update_files` is a step function on a pool state; an
  execution is a schedule, i.e. the list of thread numbers in the order in
  which the threads take their atomic steps.
-/

namespace Updater

/-! ## Data model -/

/-- Manifest record `file_info` (`name`, `size`, `hash`); `size` is the value
`GetInt64()` delivers. -/
structure file_info where
  name : String
  size : Int
  hash : String
deriving DecidableEq, Repr

/-- The macro `UPDATE_HOST_BINARY`. -/
def UPDATE_HOST_BINARY : String := "xlabs.exe"

/-- The macros `UPDATE_FOLDER_MAIN` and `UPDATE_FOLDER_DEV`. -/
def UPDATE_FOLDER_MAIN : String := "https://master.xlabs.dev/data/"

def UPDATE_FOLDER_DEV : String := "https://master.xlabs.dev/data-dev/"

/-- The macros `UPDATE_FILE_MAIN` and `UPDATE_FILE_DEV`. -/
def UPDATE_FILE_MAIN : String := "https://master.xlabs.dev/files.json"

def UPDATE_FILE_DEV : String := "https://master.xlabs.dev/files-dev.json"

/-- The members `base_` and `process_file_` of `file_updater`. -/
structure file_updater where
  base_ : String
  process_file_ : String
deriving DecidableEq, Repr

/-- The member `dead_process_file_`, set by the constructor to
`process_file_ + ".old"`. -/
def file_updater.dead_process_file_ (u : file_updater) : String :=
  u.process_file_ ++ ".old"

/-- An entry of the file system: a regular file with its contents, or a
directory. -/
inductive Node where
  | file (data : String)
  | directory
deriving DecidableEq, Repr

/-- The file system: file names with their nodes; the first entry of a name is
the one that counts.  A name is looked up as it is written: two spellings of a
path are two names.  Where an entry lies is told by the normal form of its name
(`canonical`), taken from the current directory when the name does not start at
the root. -/
abbrev Disk := List (String × Node)

/-- Everything the updater takes from outside: the digest
(`utils::cryptography::sha1::compute`), the answer of the server to a GET of a
URL (`utils::http::get_data`, the same answer throughout one run), which paths
refuse a write, the value of `std::thread::hardware_concurrency`, the update
channel (`is_main_channel`), whether the build defines `CI_BUILD`, the current
directory of the process (`std::filesystem::current_path`), and the deletions
that fail: `remove_fails disk path entry` says that the call
`std::filesystem::remove_all(path, code)` on this disk leaves the entry where it
is (it is in use, access is denied, or the call stopped at an error before it
came to the entry). -/
structure Env where
  sha1 : String → String
  http_get : String → Option String
  locked : String → Bool
  hardware_concurrency : Nat
  main_channel : Bool
  ci_build : Bool
  current_path : String
  remove_fails : Disk → String → String → Bool

/-- Notifications received by the `progress_listener`.  The progress callbacks
the transport issues during one retrieval are not recorded. -/
inductive Event where
  | update_files (files : List file_info)
  | begin_file (file : file_info)
  | end_file (file : file_info)
  | done_update
deriving DecidableEq, Repr

/-- Exceptions the updater raises: `std::runtime_error` with its message and
`update_cancelled`. -/
inductive Error where
  | runtime_error (what : String)
  | update_cancelled
deriving DecidableEq, Repr

/-- The observable state: the disk, the listener notifications so far (oldest
first) and the number of calls of `utils::nt::relaunch_self`. -/
structure World where
  disk : Disk
  log : List Event
  relaunches : Nat
deriving DecidableEq, Repr

/-! ## File system primitives (`utils::io`) -/

/-- The node stored under a name. -/
def lookup (disk : Disk) (path : String) : Option Node :=
  match disk with
  | [] => none
  | (p, n) :: rest => if p = path then some n else lookup rest path

/-- The disk without any entry of the name. -/
def erase (disk : Disk) (path : String) : Disk :=
  disk.filter (fun e => decide (e.1 ≠ path))

/-- Modelled from the spec: `utils::io::read_file` (utils/io.cpp is not among the
sources).  Yields the contents of a regular file, nothing for a missing file or
a directory. -/
def read_file (disk : Disk) (path : String) : Option String :=
  match lookup disk path with
  | some (Node.file data) => some data
  | _ => none

/-- Modelled from the spec: `utils::io::write_file` with `append = false`.  The
write either stores the data under the name, replacing a file already there, or
fails and leaves the disk as it was; it fails on a locked path and on a
directory. -/
def write_file (env : Env) (disk : Disk) (path : String) (data : String) : Option Disk :=
  if env.locked path then none
  else if lookup disk path = some Node.directory then none
  else some ((path, Node.file data) :: erase disk path)

/-- Modelled from the spec: `utils::io::move_file`.  Moves the node of `src` to
`target`, replacing what was there; without a source nothing happens. -/
def move_file (disk : Disk) (src target : String) : Disk :=
  match lookup disk src with
  | none => disk
  | some n => (target, n) :: erase (erase disk src) target

/-- Modelled from the spec: `utils::io::directory_exists`. -/
def directory_exists (disk : Disk) (path : String) : Bool :=
  decide (lookup disk path = some Node.directory)

/-! ## Digest, target path, outdated files -/

def get_update_folder (env : Env) : String :=
  if env.main_channel then UPDATE_FOLDER_MAIN else UPDATE_FOLDER_DEV

def get_update_file (env : Env) : String :=
  if env.main_channel then UPDATE_FILE_MAIN else UPDATE_FILE_DEV

def get_hash (env : Env) (data : String) : String :=
  env.sha1 data

/-- The comparison `data.size() != file.size`: the left side is a `size_t`, so
the signed right side is converted to 64 bits unsigned before comparing. -/
def size_mismatch (length : Nat) (size : Int) : Bool :=
  decide (length % 2 ^ 64 ≠ (size % 2 ^ 64).toNat)

def get_drive_filename (u : file_updater) (file : file_info) : String :=
  if file.name = UPDATE_HOST_BINARY then u.process_file_
  else u.base_ ++ "data/" ++ file.name

def is_outdated_file (env : Env) (u : file_updater) (disk : Disk) (file : file_info) : Bool :=
  if !env.ci_build && decide (file.name = UPDATE_HOST_BINARY) then false
  else
    match read_file disk (get_drive_filename u file) with
    | none => true
    | some data =>
      if size_mismatch data.length file.size then true
      else decide (get_hash env data ≠ file.hash)

def get_outdated_files (env : Env) (u : file_updater) (disk : Disk) :
    List file_info → List file_info
  | [] => []
  | info :: rest =>
    if is_outdated_file env u disk info then info :: get_outdated_files env u disk rest
    else get_outdated_files env u disk rest

/-! ## Downloading one file -/

def notify (w : World) (e : Event) : World :=
  { w with log := w.log ++ [e] }

/-- The function `update_file`: the exception raised, if any, and the world left
behind. -/
def update_file (env : Env) (u : file_updater) (w : World) (file : file_info) :
    Option Error × World :=
  let url := get_update_folder env ++ file.name
  match env.http_get url with
  | none => (some (Error.runtime_error ("Failed to download: " ++ url)), w)
  | some data =>
    if size_mismatch data.length file.size || decide (get_hash env data ≠ file.hash) then
      (some (Error.runtime_error ("Failed to download: " ++ url)), w)
    else
      let out_file := get_drive_filename u file
      match write_file env w.disk out_file data with
      | none => (some (Error.runtime_error ("Failed to write: " ++ file.name)), w)
      | some disk => (none, { w with disk := disk })

def find_host_file_info : List file_info → Option file_info
  | [] => none
  | file :: rest =>
    if file.name = UPDATE_HOST_BINARY then some file else find_host_file_info rest

/-- The function `get_optimal_concurrent_download_count`, on 64-bit `size_t`. -/
def get_optimal_concurrent_download_count (hardware_concurrency file_count : Nat) : Nat :=
  let cores := (hardware_concurrency * 2) % 2 ^ 64 / 3
  max 1 (min cores file_count)

/-! ## The worker pool of `update_files` -/

/-- Where a worker thread stands in the lambda of `update_files`: before the
test of the exception slot, before `current_index++`, before each of the three
calls of the `try` block, in the `catch` block before the slot is written, or
after its return. -/
inductive Pc where
  | check
  | claim
  | begin_file (index : Nat) (file : file_info)
  | update_file (index : Nat) (file : file_info)
  | end_file (index : Nat) (file : file_info)
  | capture (e : Error)
  | exited
deriving DecidableEq, Repr

/-- The state shared by the threads (`world`, `current_index`, `exception`),
the position of every thread, and four history lists that the code does not
read: who claimed which index, for which indices `update_file` was called, for
which of them it raised an error, and who wrote which exception into the slot,
each in the order of the events.  The cursor is not reduced modulo `2 ^ 64`: a
thread advances it at most once per file and once more. -/
structure Pool where
  world : World
  current_index : Nat
  exception : Option Error
  threads : List Pc
  claims : List (Nat × Nat)
  downloads : List Nat
  failures : List Nat
  captures : List (Nat × Error)
deriving DecidableEq, Repr

def Pool.goto (s : Pool) (t : Nat) (pc : Pc) : Pool :=
  { s with threads := s.threads.set t pc }

/-- One atomic step of thread `t`; nothing when the thread does not exist or has
returned.  A call of `update_file` is one step: the answer of the server does
not depend on the other threads, and its only shared effect is the write. -/
def step (env : Env) (u : file_updater) (outdated_files : List file_info) (s : Pool)
    (t : Nat) : Option Pool :=
  match s.threads[t]? with
  | none => none
  | some Pc.check =>
    if s.exception.isSome then some (s.goto t Pc.exited) else some (s.goto t Pc.claim)
  | some Pc.claim =>
    let index := s.current_index
    let s1 := { s with current_index := index + 1, claims := s.claims ++ [(t, index)] }
    match outdated_files[index]? with
    | none => some (s1.goto t Pc.exited)
    | some file => some (s1.goto t (Pc.begin_file index file))
  | some (Pc.begin_file index file) =>
    some (Pool.goto { s with world := notify s.world (Event.begin_file file) } t
      (Pc.update_file index file))
  | some (Pc.update_file index file) =>
    let s1 := { s with downloads := s.downloads ++ [index] }
    match update_file env u s.world file with
    | (none, w) => some (Pool.goto { s1 with world := w } t (Pc.end_file index file))
    | (some e, w) =>
      some (Pool.goto { s1 with world := w, failures := s.failures ++ [index] } t
        (Pc.capture e))
  | some (Pc.end_file _ file) =>
    some (Pool.goto { s with world := notify s.world (Event.end_file file) } t Pc.check)
  | some (Pc.capture e) =>
    some (Pool.goto { s with exception := some e, captures := s.captures ++ [(t, e)] } t
      Pc.exited)
  | some Pc.exited => none

/-- The steps of a schedule, one after the other. -/
def exec (env : Env) (u : file_updater) (outdated_files : List file_info) :
    Pool → List Nat → Option Pool
  | s, [] => some s
  | s, t :: rest =>
    match step env u outdated_files s t with
    | none => none
    | some s1 => exec env u outdated_files s1 rest

def pool_start (w : World) (thread_count : Nat) : Pool :=
  { world := w, current_index := 0, exception := none,
    threads := List.replicate thread_count Pc.check,
    claims := [], downloads := [], failures := [], captures := [] }

/-- Every thread has returned, so every `join` comes back. -/
def joined (s : Pool) : Bool :=
  s.threads.all (fun pc => decide (pc = Pc.exited))

/-- The pool state in which the threads of `update_files` are joined, for a
schedule that is a complete interleaving of the threads; nothing for any other
schedule. -/
def update_files_pool (env : Env) (u : file_updater) (w : World)
    (outdated_files : List file_info) (schedule : List Nat) : Option Pool :=
  let w1 := notify w (Event.update_files outdated_files)
  let thread_count :=
    get_optimal_concurrent_download_count env.hardware_concurrency outdated_files.length
  match exec env u outdated_files (pool_start w1 thread_count) schedule with
  | none => none
  | some s => if joined s then some s else none

/-- The function `update_files` under a schedule: the exception rethrown after
the joins, if any, and the world left behind. -/
def update_files (env : Env) (u : file_updater) (w : World)
    (outdated_files : List file_info) (schedule : List Nat) : Option (Option Error × World) :=
  match update_files_pool env u w outdated_files schedule with
  | none => none
  | some s =>
    match s.exception with
    | some e => some (some e, s.world)
    | none => some (none, notify s.world Event.done_update)

/-! ## Replacing the host binary -/

def move_current_process_file (u : file_updater) (w : World) : World :=
  { w with disk := move_file w.disk u.process_file_ u.dead_process_file_ }

def restore_current_process_file (u : file_updater) (w : World) : World :=
  { w with disk := move_file w.disk u.dead_process_file_ u.process_file_ }

/-- Modelled from the spec: `utils::nt::relaunch_self` (only declared in nt.hpp):
requests one relaunch of the process. -/
def relaunch_self (w : World) : World :=
  { w with relaunches := w.relaunches + 1 }

def update_host_binary (env : Env) (u : file_updater) (w : World)
    (outdated_files : List file_info) (schedule : List Nat) : Option (Option Error × World) :=
  match find_host_file_info outdated_files with
  | none => some (none, w)
  | some host_file =>
    match update_files env u (move_current_process_file u w) [host_file] schedule with
    | none => none
    | some (some e, w1) => some (some e, restore_current_process_file u w1)
    | some (none, w1) => some (some Error.update_cancelled, relaunch_self w1)

/-! ## Paths (`std::filesystem`)

Paths are in generic format with the separator `/` and without root names: a
path that begins with the separator starts at the root, any other path starts at
the current directory `Env.current_path`.  There are no symbolic links, so
`weakly_canonical` is the lexical normal form of the absolute path. -/

/-- The pieces of a name between its separators, empty ones included. -/
def split_at_separator : List Char → List (List Char)
  | [] => [[]]
  | c :: cs =>
    if c = '/' then [] :: split_at_separator cs
    else
      match split_at_separator cs with
      | [] => [[c]]
      | piece :: rest => (c :: piece) :: rest

def pieces (path : String) : List String :=
  (split_at_separator path.data).map String.mk

def starts_with_separator (path : String) : Bool :=
  decide (path.data.head? = some '/')

def ends_with_separator (path : String) : Bool :=
  decide (path.data.getLast? = some '/')

/-- The elements a `std::filesystem::path` iterates over: the root directory,
the file names, and an empty element after a trailing separator. -/
def path_elements (path : String) : List String :=
  let names := (pieces path).filter (fun e => decide (e ≠ ""))
  (if starts_with_separator path then ["/"] else []) ++ names ++
    (if ends_with_separator path && !names.isEmpty then [""] else [])

/-- The comparison `operator==` of two paths, element by element. -/
def path_eq (a b : String) : Bool :=
  decide (path_elements a = path_elements b)

/-- The concatenation `operator/` of two paths. -/
def path_append (p q : String) : String :=
  if starts_with_separator q then q
  else if p = "" ∨ ends_with_separator p = true then p ++ q
  else p ++ "/" ++ q

/-- The function `std::filesystem::absolute`: `current_path() / path`, which is
the path itself when it starts at the root. -/
def absolute (env : Env) (path : String) : String :=
  path_append env.current_path path

/-- One element pushed on a normal form: empty elements and `.` change nothing,
`..` removes the last name. -/
def push_element (stack : List String) (e : String) : List String :=
  if e = "" ∨ e = "." then stack
  else if e = ".." then stack.dropLast
  else stack ++ [e]

/-- The names from the root down to the entry (`weakly_canonical`). -/
def canonical (env : Env) (path : String) : List String :=
  (pieces (absolute env path)).foldl push_element []

/-- The parts of two element lists behind their common beginning. -/
def mismatch : List String → List String → List String × List String
  | a :: p, b :: q => if a = b then mismatch p q else (a :: p, b :: q)
  | p, q => (p, q)

/-- The elements of `p.lexically_relative(base)`; the empty list is the empty
path. -/
def lexically_relative (p base : List String) : List String :=
  let (a, b) := mismatch p base
  if a = [] ∧ b = [] then ["."]
  else
    let names := (b.filter (fun e => decide (e ≠ "" ∧ e ≠ "." ∧ e ≠ ".."))).length
    let ups := (b.filter (fun e => decide (e = ".."))).length
    if names < ups then []
    else if names = ups ∧ (a = [] ∨ a.head? = some "") then ["."]
    else List.replicate (names - ups) ".." ++ a

/-- The elements of `std::filesystem::relative(file, folder)`. -/
def relative (env : Env) (file folder : String) : List String :=
  lexically_relative (canonical env file) (canonical env folder)

/-- The text `path::string()` of a list of elements. -/
def path_string (elements : List String) : String :=
  "/".intercalate elements

def is_inside_folder (env : Env) (file folder : String) : Bool :=
  match relative env file folder with
  | [] => false
  | start :: _ => decide (start ≠ "..")

def is_regular_file (disk : Disk) (path : String) : Bool :=
  match lookup disk path with
  | some (Node.file _) => true
  | _ => false

def is_directory (disk : Disk) (path : String) : Bool :=
  directory_exists disk path

/-- Whether the entry lies below the directory: directly below it, or at any
depth when `recursive` is set. -/
def lies_below (env : Env) (entry directory : String) (recursive : Bool) : Bool :=
  let d := canonical env directory
  let e := canonical env entry
  d.isPrefixOf e &&
    (if recursive then decide (d.length < e.length) else decide (e.length = d.length + 1))

/-- Modelled from the spec: `utils::io::list_files`: the entries below the
directory, in the order of the disk. -/
def list_files (env : Env) (disk : Disk) (directory : String) (recursive : Bool) :
    List String :=
  (disk.map Prod.fst).filter (fun entry => lies_below env entry directory recursive)

/-- The call `std::filesystem::remove_all(file, code)`: a directory goes with
everything in it, a file goes alone, a missing entry changes nothing.  An entry
whose deletion fails (`Env.remove_fails`) stays; the source ignores the error
code, so nothing else comes of a failure. -/
def remove_all (env : Env) (disk : Disk) (path : String) : Disk :=
  match lookup disk path with
  | none => disk
  | some (Node.file _) =>
    disk.filter (fun e => decide (e.1 ≠ path) || env.remove_fails disk path e.1)
  | some Node.directory =>
    disk.filter (fun e =>
      !(canonical env path).isPrefixOf (canonical env e.1) || env.remove_fails disk path e.1)

/-! ## Cleaning up -/

def cleanup_root_directory (env : Env) (u : file_updater) (disk : Disk) : Disk :=
  (list_files env disk u.base_ false).foldl
    (fun d file =>
      let entry := relative env file u.base_
      if (path_string entry = "user" ∨ path_string entry = "data") ∧
          directory_exists d file = true then d
      else remove_all env d file)
    disk

/-- The list `legal_files` of `cleanup_data_directory`. -/
def legal_files (env : Env) (base : String) : List file_info → List String
  | [] => []
  | file :: rest =>
    if file.name ≠ UPDATE_HOST_BINARY then
      absolute env (path_append base file.name) :: legal_files env base rest
    else legal_files env base rest

/-- The inner loop of `cleanup_data_directory` over the legal files. -/
def is_legal (env : Env) (legal : List String) (file : String) (is_file is_folder : Bool) :
    Bool :=
  match legal with
  | [] => false
  | legal_file :: rest =>
    if (is_folder && is_inside_folder env legal_file file) ||
        (is_file && path_eq legal_file file)
    then true
    else is_legal env rest file is_file is_folder

def cleanup_data_directory (env : Env) (u : file_updater) (disk : Disk)
    (files : List file_info) : Disk :=
  let base := path_append u.base_ "data"
  if !directory_exists disk base then disk
  else
    let legal := legal_files env base files
    (list_files env disk base true).foldl
      (fun d file =>
        let is_file := is_regular_file d file
        let is_folder := is_directory d file
        if (is_file || is_folder) && is_legal env legal file is_file is_folder then d
        else remove_all env d file)
      disk

def cleanup_directories (env : Env) (u : file_updater) (w : World)
    (files : List file_info) : World :=
  if !directory_exists w.disk u.base_ then w
  else
    { w with disk := cleanup_data_directory env u (cleanup_root_directory env u w.disk) files }

/-! ## The manifest -/

/-- A parsed JSON document (`rapidjson::Document`); a number that is not an
`int64` is `number`. -/
inductive Json where
  | null
  | bool (b : Bool)
  | int64 (n : Int)
  | number
  | string (s : String)
  | array (elements : List Json)
  | object (members : List (String × Json))

/-- The loop of `parse_file_infos`.  An element that is an array but not of the
shape `[string, int64, string, ...]` trips a rapidjson assertion: no result. -/
def parse_elements : List Json → Option (List file_info)
  | [] => some []
  | Json.array (Json.string name :: Json.int64 size :: Json.string hash :: _) :: rest =>
    (parse_elements rest).map (fun files => { name := name, size := size, hash := hash } :: files)
  | Json.array _ :: _ => none
  | _ :: rest => parse_elements rest

def parse_file_infos (doc : Json) : Option (List file_info) :=
  match doc with
  | Json.array elements => parse_elements elements
  | _ => some []

/-- The function `get_file_infos`; `parse` is the rapidjson parser, which yields a `null`
document for a text that is not JSON. -/
def get_file_infos (env : Env) (parse : String → Json) : Option (List file_info) :=
  match env.http_get (get_update_file env) with
  | none => some []
  | some json => parse_file_infos (parse json)

/-! ## The update run -/

/-- The function `file_updater::run` under the schedules of its two calls of `update_files`.
There is no result when a schedule is not a complete interleaving or when the
manifest trips an assertion of the parser. -/
def run (env : Env) (parse : String → Json) (u : file_updater) (w : World)
    (host_schedule schedule : List Nat) : Option (Option Error × World) :=
  match get_file_infos env parse with
  | none => none
  | some files =>
    let w1 := if files.isEmpty then w else cleanup_directories env u w files
    let outdated_files := get_outdated_files env u w1.disk files
    if outdated_files.isEmpty then some (none, w1)
    else
      match update_host_binary env u w1 outdated_files host_schedule with
      | none => none
      | some (some e, w2) => some (some e, w2)
      | some (none, w2) => update_files env u w2 outdated_files schedule

/-! ## Predicates of the theorems -/

/-- The lengths a `std::string` read from the disk can have. -/
def disk_in_range (disk : Disk) : Prop :=
  ∀ path data, read_file disk path = some data → data.length < 2 ^ 63

/-- The values an `int64` size can have. -/
def size_in_range (file : file_info) : Prop :=
  -(2 : Int) ^ 63 ≤ file.size ∧ file.size < 2 ^ 63

/-- The response body of the record's URL when it passes both checks of `update_file`. -/
def checked_body (env : Env) (file : file_info) : Option String :=
  match env.http_get (get_update_folder env ++ file.name) with
  | none => none
  | some data =>
    if size_mismatch data.length file.size || decide (get_hash env data ≠ file.hash) then none
    else some data

/-- Thread `t` holds the index `i` of the file `f`: it has claimed the index and
has not yet called `update_file` for it. -/
def holds (s : Pool) (t i : Nat) (f : file_info) : Prop :=
  s.threads[t]? = some (Pc.begin_file i f) ∨ s.threads[t]? = some (Pc.update_file i f)

/-- The facts about claimed indices and downloads that every step keeps. -/
structure pool_invariant (files : List file_info) (s : Pool) : Prop where
  holds_lt : ∀ (t i : Nat) (f : file_info), holds s t i f → i < s.current_index
  holds_file : ∀ t i f, holds s t i f → files[i]? = some f
  holds_new : ∀ t i f, holds s t i f → i ∉ s.downloads
  holds_once : ∀ t k i f g, holds s t i f → holds s k i g → t = k
  downloads_lt : ∀ i ∈ s.downloads, i < s.current_index ∧ i < files.length
  downloads_nodup : s.downloads.Nodup
  complete : ∀ i, i < s.current_index → i < files.length →
    i ∈ s.downloads ∨ ∃ t f, holds s t i f
  exited : ∀ t : Nat, s.threads[t]? = some Pc.exited →
    s.exception ≠ none ∨ files.length < s.current_index

/-- The number of steps a thread at this position needs at most until it returns
or claims the next index. -/
def weight : Pc → Nat
  | Pc.check => 2
  | Pc.claim => 1
  | Pc.begin_file _ _ => 5
  | Pc.update_file _ _ => 4
  | Pc.end_file _ _ => 3
  | Pc.capture _ => 1
  | Pc.exited => 0

/-- A bound on the number of steps the pool can still take. -/
def potential (files : List file_info) (s : Pool) : Nat :=
  (s.threads.map weight).sum + 5 * (files.length - s.current_index)

/-- The file of the record on the disk is the body that passes the checks of
`update_file`. -/
def has_valid_copy (env : Env) (u : file_updater) (disk : Disk) (f : file_info) : Prop :=
  ∃ data, checked_body env f = some data ∧ read_file disk (get_drive_filename u f) = some data

/-- What the downloads of a pool have done to the disk `disk0` they started
from: only targets of the files have changed, and as long as no download has
failed every downloaded file has a valid copy. -/
structure disk_invariant (env : Env) (u : file_updater) (files : List file_info)
    (disk0 : Disk) (s : Pool) : Prop where
  untouched : ∀ p : String, (∀ f ∈ files, get_drive_filename u f ≠ p) →
    lookup s.world.disk p = lookup disk0 p
  valid : s.exception = none → (∀ (t : Nat) (e : Error), s.threads[t]? ≠ some (Pc.capture e)) →
    ∀ i ∈ s.downloads, ∀ f : file_info, files[i]? = some f → has_valid_copy env u s.world.disk f

/-! ## Example data -/

/-- A toy digest for the examples: the text behind the letter `H`. -/
def ex_sha1 (data : String) : String := "H" ++ data

def ex_env : Env :=
  { sha1 := ex_sha1
    http_get := fun url =>
      if url = "https://master.xlabs.dev/data/b.txt" then some "xyz"
      else if url = "https://master.xlabs.dev/data/d.txt" then some "dd"
      else if url = "https://master.xlabs.dev/data/xlabs.exe" then some "new"
      else none
    locked := fun _ => false
    hardware_concurrency := 4
    main_channel := true
    ci_build := false
    current_path := "/work"
    remove_fails := fun _ _ _ => false }

def ex_updater : file_updater :=
  { base_ := "/root/", process_file_ := "/bin/xlabs.exe" }

def ex_a : file_info := { name := "a.txt", size := 5, hash := "Hhello" }

def ex_b : file_info := { name := "b.txt", size := 3, hash := "Hxyz" }

def ex_manifest : List file_info := [ex_a, ex_b]

def ex_disk : Disk :=
  [("/root/", Node.directory), ("/root/data", Node.directory),
   ("/root/data/a.txt", Node.file "hello")]

def ex_c : file_info := { name := "c.txt", size := 1, hash := "Hc" }

def ex_world : World := { disk := ex_disk, log := [], relaunches := 0 }

/-- The errors of the two downloads that fail in the example of the slot. -/
def ex_error_a : Error :=
  Error.runtime_error "Failed to download: https://master.xlabs.dev/data/a.txt"

def ex_error_c : Error :=
  Error.runtime_error "Failed to download: https://master.xlabs.dev/data/c.txt"

def ex_d : file_info := { name := "d.txt", size := 2, hash := "Hdd" }

/-- A host record that matches what the server delivers, and one whose size does
not. -/
def ex_host : file_info := { name := "xlabs.exe", size := 3, hash := "Hnew" }

def ex_host_bad : file_info := { name := "xlabs.exe", size := 99, hash := "Hnew" }

def ex_world_exe : World :=
  { disk := ("/bin/xlabs.exe", Node.file "old") :: ex_disk, log := [], relaunches := 0 }

/-- A build with `CI_BUILD` whose server also delivers a manifest. -/
def ex_env_ci : Env :=
  { ex_env with
    ci_build := true
    http_get := fun url =>
      if url = "https://master.xlabs.dev/files.json" then some "manifest"
      else ex_env.http_get url }

def ex_parse (_ : String) : Json :=
  Json.array
    [Json.array [Json.string "xlabs.exe", Json.int64 3, Json.string "Hnew"],
     Json.array [Json.string "a.txt", Json.int64 5, Json.string "Hhello"],
     Json.array [Json.string "b.txt", Json.int64 3, Json.string "Hxyz"]]

/-- An install root with both protected directories, stale entries at the root
and in the content directory, and files of the manifest. -/
def ex_disk_tree : Disk :=
  [("/root/", Node.directory), ("/root/data", Node.directory), ("/root/user", Node.directory),
   ("/root/junk.txt", Node.file "j"), ("/root/tmp", Node.directory),
   ("/root/tmp/x", Node.file "x"), ("/root/data/a.txt", Node.file "hello"),
   ("/root/data/sub", Node.directory), ("/root/data/sub/c.txt", Node.file "c"),
   ("/root/data/old", Node.directory), ("/root/data/old/z.txt", Node.file "z")]

def ex_sub : file_info := { name := "sub/c.txt", size := 1, hash := "Hc" }

/-- A parser that reads every payload as a JSON object. -/
def ex_parse_object (_ : String) : Json :=
  Json.object [("files", Json.array [])]

/-- A build without `CI_BUILD` whose server delivers the manifest of `ex_parse`. -/
def ex_env_release : Env :=
  { ex_env_ci with ci_build := false }

/-- A content directory that holds a directory with the name of the host binary. -/
def ex_disk_host_folder : Disk :=
  [("/root/data", Node.directory), ("/root/data/xlabs.exe", Node.directory),
   ("/root/data/xlabs.exe/notes.txt", Node.file "n")]

/-- An updater whose install root is given relative to the current directory,
and a content directory listed under such names. -/
def ex_updater_relative : file_updater :=
  { base_ := "root/", process_file_ := "/bin/xlabs.exe" }

def ex_disk_relative : Disk :=
  [("root/", Node.directory), ("root/data", Node.directory),
   ("root/data/a.txt", Node.file "hello"), ("root/data/sub", Node.directory),
   ("root/data/sub/c.txt", Node.file "c")]

/-- An updater whose process file is the content file `b.txt`, and a disk that
holds this file. -/
def ex_updater_shared : file_updater :=
  { base_ := "/root/", process_file_ := "/root/data/b.txt" }

def ex_world_shared : World :=
  { disk := ("/root/data/b.txt", Node.file "old") :: ex_disk, log := [], relaunches := 0 }

/-! ## Theorems -/

/-! ### Basic facts -/

theorem size_mismatch_iff (length : Nat) (size : Int) (hl : length < 2 ^ 63)
    (hs : -(2 : Int) ^ 63 ≤ size ∧ size < 2 ^ 63) :
    size_mismatch length size = true ↔ (length : Int) ≠ size := by
  unfold size_mismatch
  simp only [decide_eq_true_eq, ne_eq]
  constructor
  · intro h heq
    apply h
    subst heq
    have : ((length : Int) % 2 ^ 64).toNat = length % 2 ^ 64 := by omega
    omega
  · intro h heq
    apply h
    omega

theorem get_outdated_files_eq_filter (env : Env) (u : file_updater) (disk : Disk)
    (files : List file_info) :
    get_outdated_files env u disk files = files.filter (is_outdated_file env u disk) := by
  induction files with
  | nil => rfl
  | cons info rest ih =>
    simp only [get_outdated_files, List.filter_cons, ih]

/-- C1: `get_outdated_files` returns a subsequence of the manifest in manifest
order, and a record other than the host binary is in it exactly when its local
file is absent, or has a length other than the record's size, or has a digest
other than the record's hash. -/
theorem get_outdated_files_spec (env : Env) (u : file_updater) (disk : Disk)
    (files : List file_info) (hdisk : disk_in_range disk)
    (hsize : ∀ f ∈ files, size_in_range f) :
    (get_outdated_files env u disk files).Sublist files ∧
    ∀ f ∈ files, f.name ≠ UPDATE_HOST_BINARY →
      (f ∈ get_outdated_files env u disk files ↔
        (read_file disk (get_drive_filename u f) = none ∨
          ∃ data, read_file disk (get_drive_filename u f) = some data ∧
            ((data.length : Int) ≠ f.size ∨ env.sha1 data ≠ f.hash))) := by
  rw [get_outdated_files_eq_filter]
  refine ⟨List.filter_sublist _, ?_⟩
  intro f hf hname
  rw [List.mem_filter]
  simp only [hf, true_and]
  unfold is_outdated_file
  simp only [hname, decide_False, Bool.and_false, Bool.false_eq_true, if_false]
  cases hread : read_file disk (get_drive_filename u f) with
  | none => simp
  | some data =>
    have hm := size_mismatch_iff data.length f.size (hdisk _ _ hread) (hsize f hf)
    by_cases hsz : size_mismatch data.length f.size = true
    · simp [hsz, hm.mp hsz]
    · have hne : ¬ ((data.length : Int) ≠ f.size) := fun h => hsz (hm.mpr h)
      simp only [ne_eq, not_not] at hne
      simp [hsz, hne, get_hash]

/-- C10: for a hardware concurrency `h` (an `unsigned int`) and a file count `n`
the pool size is `max(1, min(floor(2*h/3), n))`; it is at least 1 and, when
`n >= 1`, at most `n`. -/
theorem get_optimal_concurrent_download_count_spec (h n : Nat) (hh : h < 2 ^ 32) :
    get_optimal_concurrent_download_count h n = max 1 (min (2 * h / 3) n) ∧
    1 ≤ get_optimal_concurrent_download_count h n ∧
    (1 ≤ n → get_optimal_concurrent_download_count h n ≤ n) := by
  unfold get_optimal_concurrent_download_count
  have h1 : h * 2 % 2 ^ 64 = 2 * h := by omega
  simp only [h1]
  refine ⟨trivial, ?_, ?_⟩
  · omega
  · intro hn
    omega

theorem read_file_write (env : Env) (disk disk1 : Disk) (path data : String)
    (h : write_file env disk path data = some disk1) : read_file disk1 path = some data := by
  unfold write_file at h
  split at h
  · cases h
  · split at h
    · cases h
    · cases h
      simp [read_file, lookup]

theorem update_file_eq (env : Env) (u : file_updater) (w : World) (file : file_info) :
    update_file env u w file =
      match checked_body env file with
      | none =>
        (some (Error.runtime_error
          ("Failed to download: " ++ (get_update_folder env ++ file.name))), w)
      | some data =>
        match write_file env w.disk (get_drive_filename u file) data with
        | none => (some (Error.runtime_error ("Failed to write: " ++ file.name)), w)
        | some disk => (none, { w with disk := disk }) := by
  simp only [update_file, checked_body]
  cases hget : env.http_get (get_update_folder env ++ file.name) with
  | none => simp only
  | some data =>
    simp only
    by_cases hc : (size_mismatch data.length file.size ||
        decide (get_hash env data ≠ file.hash)) = true
    · simp only [hc, if_true]
    · simp only [hc, if_false, Bool.false_eq_true]

theorem checked_body_iff (env : Env) (file : file_info) (data : String)
    (hbody : ∀ data, env.http_get (get_update_folder env ++ file.name) = some data →
      data.length < 2 ^ 63)
    (hsize : size_in_range file) :
    checked_body env file = some data ↔
      (env.http_get (get_update_folder env ++ file.name) = some data ∧
        (data.length : Int) = file.size ∧ env.sha1 data = file.hash) := by
  unfold checked_body
  cases hget : env.http_get (get_update_folder env ++ file.name) with
  | none =>
    constructor
    · intro h; cases h
    · rintro ⟨h, _⟩; cases h
  | some body =>
    have hm := size_mismatch_iff body.length file.size (hbody body hget) hsize
    by_cases hsz : size_mismatch body.length file.size = true
    · have hne := hm.mp hsz
      simp only [hsz, Bool.true_or, if_true]
      constructor
      · intro h; cases h
      · rintro ⟨hb, hl, _⟩
        injection hb with hb
        subst hb
        exact absurd hl hne
    · have hlen : (body.length : Int) = file.size := by
        by_contra hne
        exact hsz (hm.mpr hne)
      simp only [Bool.not_eq_true] at hsz
      by_cases hh : env.sha1 body = file.hash
      · have hd : decide (get_hash env body ≠ file.hash) = false := by
          simp [get_hash, hh]
        simp only [hsz, hd, Bool.or_self, Bool.false_eq_true, if_false]
        constructor
        · intro h
          injection h with h
          subst h
          exact ⟨rfl, hlen, hh⟩
        · intro h; exact h.1
      · have hd : decide (get_hash env body ≠ file.hash) = true := by
          simp [get_hash, hh]
        simp only [hsz, hd, Bool.or_true, if_true]
        constructor
        · intro h; cases h
        · rintro ⟨hb, _, hh2⟩
          injection hb with hb
          subst hb
          exact absurd hh2 hh

/-- C2: `update_file` writes the response body to the record's target path (the
process path for xlabs.exe, otherwise base + "data/" + name) only when a body
was received whose length is the record's size and whose digest is the record's
hash; whenever it raises an error it leaves the world as it was, and it raises
one in every case without such a body. -/
theorem update_file_spec (env : Env) (u : file_updater) (w : World) (file : file_info)
    (hbody : ∀ data, env.http_get (get_update_folder env ++ file.name) = some data →
      data.length < 2 ^ 63)
    (hsize : size_in_range file) :
    (get_drive_filename u file =
      if file.name = "xlabs.exe" then u.process_file_ else u.base_ ++ "data/" ++ file.name) ∧
    (∀ data disk, env.http_get (get_update_folder env ++ file.name) = some data →
      (data.length : Int) = file.size → env.sha1 data = file.hash →
      write_file env w.disk (get_drive_filename u file) data = some disk →
      update_file env u w file = (none, { w with disk := disk }) ∧
        read_file disk (get_drive_filename u file) = some data) ∧
    ((update_file env u w file).1 = none →
      ∃ data, env.http_get (get_update_folder env ++ file.name) = some data ∧
        (data.length : Int) = file.size ∧ env.sha1 data = file.hash ∧
        write_file env w.disk (get_drive_filename u file) data =
          some (update_file env u w file).2.disk) ∧
    ((update_file env u w file).1 ≠ none → (update_file env u w file).2 = w) ∧
    ((¬ ∃ data, env.http_get (get_update_folder env ++ file.name) = some data ∧
        (data.length : Int) = file.size ∧ env.sha1 data = file.hash) →
      (update_file env u w file).1 ≠ none) := by
  have hiff := fun data => checked_body_iff env file data hbody hsize
  rw [update_file_eq]
  refine ⟨rfl, ?_, ?_, ?_, ?_⟩
  · intro data disk hget hlen hhash hwrite
    rw [(hiff data).mpr ⟨hget, hlen, hhash⟩]
    simp only [hwrite]
    exact ⟨trivial, read_file_write env _ _ _ _ hwrite⟩
  · cases hc : checked_body env file with
    | none => intro h; cases h
    | some data =>
      obtain ⟨h1, h2, h3⟩ := (hiff data).mp hc
      cases hw : write_file env w.disk (get_drive_filename u file) data with
      | none => simp only [hw]; intro h; cases h
      | some disk => simp only [hw]; intro _; exact ⟨data, h1, h2, h3, hw⟩
  · cases hc : checked_body env file with
    | none => intro _; rfl
    | some data =>
      cases hw : write_file env w.disk (get_drive_filename u file) data with
      | none => simp only [hw]; intro _; trivial
      | some disk => simp only [hw]; intro h; exact absurd rfl h
  · intro hno
    cases hc : checked_body env file with
    | none => intro h; cases h
    | some data => exact absurd ⟨data, (hiff data).mp hc⟩ hno

/-! ### The worker pool: steps and executions -/

theorem exec_append (env : Env) (u : file_updater) (files : List file_info) (s : Pool)
    (a b : List Nat) :
    exec env u files s (a ++ b) = (exec env u files s a).bind (fun s1 => exec env u files s1 b) := by
  induction a generalizing s with
  | nil => rfl
  | cons t rest ih =>
    simp only [List.cons_append, exec]
    cases step env u files s t with
    | none => rfl
    | some s1 => exact ih s1

/-- A property kept by every step holds along every execution. -/
theorem exec_invariant (env : Env) (u : file_updater) (files : List file_info)
    (P : Pool → Prop)
    (hstep : ∀ s t s1, P s → step env u files s t = some s1 → P s1)
    (s s1 : Pool) (schedule : List Nat) (h0 : P s)
    (h : exec env u files s schedule = some s1) : P s1 := by
  induction schedule generalizing s with
  | nil =>
    simp only [exec, Option.some.injEq] at h
    exact h ▸ h0
  | cons t rest ih =>
    simp only [exec] at h
    cases hs : step env u files s t with
    | none => simp [hs] at h
    | some s2 =>
      simp only [hs] at h
      exact ih s2 (hstep s t s2 h0 hs) h

/-- The cases of a step. -/
theorem step_cases (env : Env) (u : file_updater) (files : List file_info) (s s1 : Pool)
    (t : Nat) (h : step env u files s t = some s1) :
    (s.threads[t]? = some Pc.check ∧ s.exception ≠ none ∧ s1 = s.goto t Pc.exited) ∨
    (s.threads[t]? = some Pc.check ∧ s.exception = none ∧ s1 = s.goto t Pc.claim) ∨
    (s.threads[t]? = some Pc.claim ∧ files[s.current_index]? = none ∧
      s1 = Pool.goto { s with current_index := s.current_index + 1,
                              claims := s.claims ++ [(t, s.current_index)] } t Pc.exited) ∨
    (∃ file, s.threads[t]? = some Pc.claim ∧ files[s.current_index]? = some file ∧
      s1 = Pool.goto { s with current_index := s.current_index + 1,
                              claims := s.claims ++ [(t, s.current_index)] } t
             (Pc.begin_file s.current_index file)) ∨
    (∃ index file, s.threads[t]? = some (Pc.begin_file index file) ∧
      s1 = Pool.goto { s with world := notify s.world (Event.begin_file file) } t
             (Pc.update_file index file)) ∨
    (∃ index file w, s.threads[t]? = some (Pc.update_file index file) ∧
      update_file env u s.world file = (none, w) ∧
      s1 = Pool.goto { s with downloads := s.downloads ++ [index], world := w } t
             (Pc.end_file index file)) ∨
    (∃ index file e w, s.threads[t]? = some (Pc.update_file index file) ∧
      update_file env u s.world file = (some e, w) ∧
      s1 = Pool.goto { s with downloads := s.downloads ++ [index], world := w,
                              failures := s.failures ++ [index] } t
             (Pc.capture e)) ∨
    (∃ index file, s.threads[t]? = some (Pc.end_file index file) ∧
      s1 = Pool.goto { s with world := notify s.world (Event.end_file file) } t Pc.check) ∨
    (∃ e, s.threads[t]? = some (Pc.capture e) ∧
      s1 = Pool.goto { s with exception := some e, captures := s.captures ++ [(t, e)] } t
             Pc.exited) := by
  unfold step at h
  cases hpc : s.threads[t]? with
  | none => simp [hpc] at h
  | some pc =>
    simp only [hpc] at h
    cases pc with
    | check =>
      simp only at h
      by_cases hex : s.exception.isSome = true
      · simp only [hex, if_true, Option.some.injEq] at h
        left
        refine ⟨rfl, ?_, h.symm⟩
        intro hn
        simp [hn] at hex
      · simp only [hex, if_false, Option.some.injEq, Bool.false_eq_true] at h
        right; left
        refine ⟨rfl, ?_, h.symm⟩
        simpa using hex
    | claim =>
      simp only at h
      cases hf : files[s.current_index]? with
      | none =>
        simp only [hf, Option.some.injEq] at h
        right; right; left
        exact ⟨rfl, rfl, h.symm⟩
      | some file =>
        simp only [hf, Option.some.injEq] at h
        right; right; right; left
        exact ⟨file, rfl, rfl, h.symm⟩
    | begin_file index file =>
      simp only [Option.some.injEq] at h
      right; right; right; right; left
      exact ⟨index, file, rfl, h.symm⟩
    | update_file index file =>
      simp only at h
      cases hu : update_file env u s.world file with
      | mk r w =>
        cases r with
        | none =>
          simp only [hu, Option.some.injEq] at h
          right; right; right; right; right; left
          exact ⟨index, file, w, rfl, hu, h.symm⟩
        | some e =>
          simp only [hu, Option.some.injEq] at h
          right; right; right; right; right; right; left
          exact ⟨index, file, e, w, rfl, hu, h.symm⟩
    | end_file index file =>
      simp only [Option.some.injEq] at h
      right; right; right; right; right; right; right; left
      exact ⟨index, file, rfl, h.symm⟩
    | capture e =>
      simp only [Option.some.injEq] at h
      right; right; right; right; right; right; right; right
      exact ⟨e, rfl, h.symm⟩
    | exited => simp at h
theorem goto_threads (s : Pool) (t k : Nat) (pc pc0 : Pc) (h : s.threads[t]? = some pc0) :
    (s.goto t pc).threads[k]? = if k = t then some pc else s.threads[k]? := by
  have hlt : t < s.threads.length := by
    rcases Nat.lt_or_ge t s.threads.length with hl | hl
    · exact hl
    · rw [List.getElem?_eq_none hl] at h
      cases h
  simp only [Pool.goto, List.getElem?_set]
  by_cases hk : k = t
  · subst hk
    simp [hlt]
  · have : ¬ t = k := fun h => hk h.symm
    simp [hk, this]

theorem step_claims_range (env : Env) (u : file_updater) (files : List file_info)
    (s s1 : Pool) (t : Nat)
    (h0 : s.claims.map Prod.snd = List.range s.current_index)
    (h : step env u files s t = some s1) :
    s1.claims.map Prod.snd = List.range s1.current_index := by
  rcases step_cases env u files s s1 t h with
    ⟨_, _, rfl⟩ | ⟨_, _, rfl⟩ | ⟨_, _, rfl⟩ | ⟨_, _, _, rfl⟩ | ⟨_, _, _, rfl⟩ |
    ⟨_, _, _, _, _, rfl⟩ | ⟨_, _, _, _, _, _, rfl⟩ | ⟨_, _, _, rfl⟩ | ⟨_, _, rfl⟩ <;>
  simp [Pool.goto, h0, List.range_succ]

theorem step_slot (env : Env) (u : file_updater) (files : List file_info)
    (s s1 : Pool) (t : Nat)
    (h0 : s.exception = s.captures.getLast?.map Prod.snd)
    (h : step env u files s t = some s1) :
    s1.exception = s1.captures.getLast?.map Prod.snd := by
  rcases step_cases env u files s s1 t h with
    ⟨_, _, rfl⟩ | ⟨_, _, rfl⟩ | ⟨_, _, rfl⟩ | ⟨_, _, _, rfl⟩ | ⟨_, _, _, rfl⟩ |
    ⟨_, _, _, _, _, rfl⟩ | ⟨_, _, _, _, _, _, rfl⟩ | ⟨_, _, _, rfl⟩ | ⟨_, _, rfl⟩ <;>
  simp [Pool.goto, h0]

theorem step_slot_stays (env : Env) (u : file_updater) (files : List file_info)
    (s s1 : Pool) (t : Nat) (h0 : s.exception ≠ none)
    (h : step env u files s t = some s1) : s1.exception ≠ none := by
  rcases step_cases env u files s s1 t h with
    ⟨_, _, rfl⟩ | ⟨_, _, rfl⟩ | ⟨_, _, rfl⟩ | ⟨_, _, _, rfl⟩ | ⟨_, _, _, rfl⟩ |
    ⟨_, _, _, _, _, rfl⟩ | ⟨_, _, _, _, _, _, rfl⟩ | ⟨_, _, _, rfl⟩ | ⟨_, _, rfl⟩ <;>
  simp [Pool.goto, h0]

theorem holds_set (s s1 : Pool) (t : Nat) (pc pc0 : Pc)
    (hth : s1.threads = s.threads.set t pc) (h : s.threads[t]? = some pc0)
    (k i : Nat) (f : file_info) :
    holds s1 k i f ↔
      if k = t then (pc = Pc.begin_file i f ∨ pc = Pc.update_file i f) else holds s k i f := by
  have hg := goto_threads s t k pc pc0 h
  simp only [Pool.goto] at hg
  unfold holds
  rw [hth, hg]
  by_cases hk : k = t
  · simp [hk]
  · simp [hk]

/-- A step between two positions in which the thread holds no index. -/
theorem invariant_quiet (files : List file_info) (s s1 : Pool) (t : Nat) (pc pc0 : Pc)
    (hpc0 : s.threads[t]? = some pc0)
    (hn0 : ∀ i f, pc0 ≠ Pc.begin_file i f ∧ pc0 ≠ Pc.update_file i f)
    (hn : ∀ i f, pc ≠ Pc.begin_file i f ∧ pc ≠ Pc.update_file i f)
    (hth : s1.threads = s.threads.set t pc)
    (hcur : s.current_index ≤ s1.current_index)
    (hcur2 : ∀ i, i < s1.current_index → i < files.length → i < s.current_index)
    (hd : s1.downloads = s.downloads)
    (hex : s.exception ≠ none → s1.exception ≠ none)
    (hexit : pc = Pc.exited → s1.exception ≠ none ∨ files.length < s1.current_index)
    (inv : pool_invariant files s) : pool_invariant files s1 := by
  have hh : ∀ k i f, holds s1 k i f ↔ holds s k i f := by
    intro k i f
    rw [holds_set s s1 t pc pc0 hth hpc0]
    by_cases hk : k = t
    · subst hk
      simp only [if_true]
      constructor
      · intro h
        rcases h with h | h
        · exact absurd h (hn i f).1
        · exact absurd h (hn i f).2
      · intro h
        rcases h with h | h
        · rw [hpc0] at h
          injection h with h
          exact absurd h (hn0 i f).1
        · rw [hpc0] at h
          injection h with h
          exact absurd h (hn0 i f).2
    · simp [hk]
  constructor
  · intro k i f h
    exact lt_of_lt_of_le (inv.holds_lt k i f ((hh k i f).mp h)) hcur
  · intro k i f h
    exact inv.holds_file k i f ((hh k i f).mp h)
  · intro k i f h
    rw [hd]
    exact inv.holds_new k i f ((hh k i f).mp h)
  · intro k l i f g h1 h2
    exact inv.holds_once k l i f g ((hh k i f).mp h1) ((hh l i g).mp h2)
  · intro i hi
    rw [hd] at hi
    exact ⟨lt_of_lt_of_le (inv.downloads_lt i hi).1 hcur, (inv.downloads_lt i hi).2⟩
  · rw [hd]
    exact inv.downloads_nodup
  · intro i h1 h2
    rcases inv.complete i (hcur2 i h1 h2) h2 with h | ⟨k, f, h⟩
    · left; rw [hd]; exact h
    · right; exact ⟨k, f, (hh k i f).mpr h⟩
  · intro k hk
    have hg := goto_threads s t k pc pc0 hpc0
    simp only [Pool.goto] at hg
    rw [hth, hg] at hk
    by_cases hkt : k = t
    · simp only [hkt, if_true, Option.some.injEq] at hk
      exact hexit hk
    · simp only [hkt, if_false] at hk
      rcases inv.exited k hk with h | h
      · left; exact hex h
      · right; exact lt_of_lt_of_le h hcur
theorem threads_set (s s1 : Pool) (t k : Nat) (pc pc0 : Pc)
    (hth : s1.threads = s.threads.set t pc) (h : s.threads[t]? = some pc0) :
    s1.threads[k]? = if k = t then some pc else s.threads[k]? := by
  have hg := goto_threads s t k pc pc0 h
  simp only [Pool.goto] at hg
  rw [hth, hg]

theorem invariant_claim (files : List file_info) (s s1 : Pool) (t : Nat) (file : file_info)
    (hpc0 : s.threads[t]? = some Pc.claim) (hf : files[s.current_index]? = some file)
    (hth : s1.threads = s.threads.set t (Pc.begin_file s.current_index file))
    (hcur : s1.current_index = s.current_index + 1)
    (hd : s1.downloads = s.downloads)
    (hex : s1.exception = s.exception)
    (inv : pool_invariant files s) : pool_invariant files s1 := by
  have hh := holds_set s s1 t (Pc.begin_file s.current_index file) Pc.claim hth hpc0
  have hnot : ∀ i f, ¬ holds s t i f := by
    intro i f h
    rcases h with h | h <;> · rw [hpc0] at h; cases h
  have hlen : s.current_index < files.length := by
    rcases Nat.lt_or_ge s.current_index files.length with hl | hl
    · exact hl
    · rw [List.getElem?_eq_none hl] at hf
      cases hf
  constructor
  · intro k i f h
    rw [hh] at h
    rw [hcur]
    by_cases hk : k = t
    · simp only [hk, if_true, Pc.begin_file.injEq, reduceCtorEq, or_false] at h
      omega
    · simp only [hk, if_false] at h
      have := inv.holds_lt k i f h
      omega
  · intro k i f h
    rw [hh] at h
    by_cases hk : k = t
    · simp only [hk, if_true, Pc.begin_file.injEq, reduceCtorEq, or_false] at h
      rw [← h.1, ← h.2]
      exact hf
    · simp only [hk, if_false] at h
      exact inv.holds_file k i f h
  · intro k i f h
    rw [hh] at h
    rw [hd]
    by_cases hk : k = t
    · simp only [hk, if_true, Pc.begin_file.injEq, reduceCtorEq, or_false] at h
      intro hi
      have := (inv.downloads_lt i hi).1
      omega
    · simp only [hk, if_false] at h
      exact inv.holds_new k i f h
  · intro k l i f g h1 h2
    rw [hh] at h1 h2
    by_cases hk : k = t
    · by_cases hl : l = t
      · rw [hk, hl]
      · simp only [hk, if_true, Pc.begin_file.injEq, reduceCtorEq, or_false] at h1
        simp only [hl, if_false] at h2
        have := inv.holds_lt l i g h2
        omega
    · by_cases hl : l = t
      · simp only [hl, if_true, Pc.begin_file.injEq, reduceCtorEq, or_false] at h2
        simp only [hk, if_false] at h1
        have := inv.holds_lt k i f h1
        omega
      · simp only [hk, if_false] at h1
        simp only [hl, if_false] at h2
        exact inv.holds_once k l i f g h1 h2
  · intro i hi
    rw [hd] at hi
    have := inv.downloads_lt i hi
    rw [hcur]
    omega
  · rw [hd]
    exact inv.downloads_nodup
  · intro i h1 h2
    rw [hcur] at h1
    rw [hd]
    by_cases hi : i = s.current_index
    · right
      refine ⟨t, file, ?_⟩
      rw [hh]
      simp [hi]
    · rcases inv.complete i (by omega) h2 with h | ⟨k, f, h⟩
      · left; exact h
      · right
        refine ⟨k, f, ?_⟩
        rw [hh]
        by_cases hk : k = t
        · rw [hk] at h
          exact absurd h (hnot i f)
        · simp only [hk, if_false]
          exact h
  · intro k hk
    rw [threads_set s s1 t k _ _ hth hpc0] at hk
    by_cases hkt : k = t
    · simp [hkt] at hk
    · simp only [hkt, if_false] at hk
      rw [hex, hcur]
      rcases inv.exited k hk with h | h
      · left; exact h
      · right
        omega

theorem invariant_begin (files : List file_info) (s s1 : Pool) (t index : Nat)
    (file : file_info)
    (hpc0 : s.threads[t]? = some (Pc.begin_file index file))
    (hth : s1.threads = s.threads.set t (Pc.update_file index file))
    (hcur : s1.current_index = s.current_index)
    (hd : s1.downloads = s.downloads)
    (hex : s1.exception = s.exception)
    (inv : pool_invariant files s) : pool_invariant files s1 := by
  have hh : ∀ k i f, holds s1 k i f ↔ holds s k i f := by
    intro k i f
    rw [holds_set s s1 t (Pc.update_file index file) (Pc.begin_file index file) hth hpc0]
    by_cases hk : k = t
    · subst hk
      simp only [if_true, reduceCtorEq, false_or, Pc.update_file.injEq, holds, hpc0,
        Option.some.injEq, Pc.begin_file.injEq, or_false]
    · simp [hk]
  constructor
  · intro k i f h
    rw [hcur]
    exact inv.holds_lt k i f ((hh k i f).mp h)
  · intro k i f h
    exact inv.holds_file k i f ((hh k i f).mp h)
  · intro k i f h
    rw [hd]
    exact inv.holds_new k i f ((hh k i f).mp h)
  · intro k l i f g h1 h2
    exact inv.holds_once k l i f g ((hh k i f).mp h1) ((hh l i g).mp h2)
  · rw [hd, hcur]
    exact inv.downloads_lt
  · rw [hd]
    exact inv.downloads_nodup
  · intro i h1 h2
    rw [hcur] at h1
    rw [hd]
    rcases inv.complete i h1 h2 with h | ⟨k, f, h⟩
    · left; exact h
    · right; exact ⟨k, f, (hh k i f).mpr h⟩
  · intro k hk
    rw [threads_set s s1 t k _ _ hth hpc0] at hk
    by_cases hkt : k = t
    · simp [hkt] at hk
    · simp only [hkt, if_false] at hk
      rw [hex, hcur]
      exact inv.exited k hk

theorem invariant_download (files : List file_info) (s s1 : Pool) (t index : Nat)
    (file : file_info) (pc : Pc)
    (hpc0 : s.threads[t]? = some (Pc.update_file index file))
    (hn : ∀ i f, pc ≠ Pc.begin_file i f ∧ pc ≠ Pc.update_file i f)
    (hne : pc ≠ Pc.exited)
    (hth : s1.threads = s.threads.set t pc)
    (hcur : s1.current_index = s.current_index)
    (hd : s1.downloads = s.downloads ++ [index])
    (hex : s1.exception = s.exception)
    (inv : pool_invariant files s) : pool_invariant files s1 := by
  have hheld : holds s t index file := Or.inr hpc0
  have hh : ∀ k i f, holds s1 k i f ↔ (k ≠ t ∧ holds s k i f) := by
    intro k i f
    rw [holds_set s s1 t pc (Pc.update_file index file) hth hpc0]
    by_cases hk : k = t
    · simp only [hk, if_true, ne_eq, not_true_eq_false, false_and, iff_false, not_or]
      exact ⟨(hn i f).1, (hn i f).2⟩
    · simp [hk]
  constructor
  · intro k i f h
    rw [hcur]
    exact inv.holds_lt k i f ((hh k i f).mp h).2
  · intro k i f h
    exact inv.holds_file k i f ((hh k i f).mp h).2
  · intro k i f h
    obtain ⟨hk, h⟩ := (hh k i f).mp h
    rw [hd]
    simp only [List.mem_append, List.mem_singleton, not_or]
    refine ⟨inv.holds_new k i f h, ?_⟩
    intro hi
    subst hi
    exact hk (inv.holds_once k t i f file h hheld)
  · intro k l i f g h1 h2
    exact inv.holds_once k l i f g ((hh k i f).mp h1).2 ((hh l i g).mp h2).2
  · intro i hi
    rw [hd] at hi
    rw [hcur]
    simp only [List.mem_append, List.mem_singleton] at hi
    rcases hi with hi | hi
    · exact inv.downloads_lt i hi
    · subst hi
      refine ⟨inv.holds_lt t i file hheld, ?_⟩
      have := inv.holds_file t i file hheld
      rcases Nat.lt_or_ge i files.length with hl | hl
      · exact hl
      · rw [List.getElem?_eq_none hl] at this
        cases this
  · rw [hd, List.nodup_append]
    refine ⟨inv.downloads_nodup, List.nodup_singleton _, ?_⟩
    intro a ha hb
    simp only [List.mem_singleton] at hb
    subst hb
    exact inv.holds_new t a file hheld ha
  · intro i h1 h2
    rw [hcur] at h1
    rw [hd]
    rcases inv.complete i h1 h2 with h | ⟨k, f, h⟩
    · left; simp [h]
    · by_cases hk : k = t
      · subst hk
        have hi : i = index := by
          rcases h with h | h
          · rw [hpc0] at h; cases h
          · rw [hpc0] at h; injection h with h; injection h with h1 h2; exact h1.symm
        left; simp [hi]
      · right; exact ⟨k, f, (hh k i f).mpr ⟨hk, h⟩⟩
  · intro k hk
    rw [threads_set s s1 t k _ _ hth hpc0] at hk
    by_cases hkt : k = t
    · simp only [hkt, if_true, Option.some.injEq] at hk
      exact absurd hk hne
    · simp only [hkt, if_false] at hk
      rw [hex, hcur]
      exact inv.exited k hk

/-- Every step keeps the pool invariant. -/
theorem step_invariant (env : Env) (u : file_updater) (files : List file_info)
    (s s1 : Pool) (t : Nat) (inv : pool_invariant files s)
    (h : step env u files s t = some s1) : pool_invariant files s1 := by
  rcases step_cases env u files s s1 t h with
    ⟨hpc, hex, rfl⟩ | ⟨hpc, _, rfl⟩ | ⟨hpc, hf, rfl⟩ | ⟨file, hpc, hf, rfl⟩ |
    ⟨index, file, hpc, rfl⟩ | ⟨index, file, w, hpc, _, rfl⟩ |
    ⟨index, file, e, w, hpc, _, rfl⟩ | ⟨index, file, hpc, rfl⟩ | ⟨e, hpc, rfl⟩
  · exact invariant_quiet files s _ t Pc.exited Pc.check hpc (by simp) (by simp) rfl
      (le_refl _) (fun _ h _ => h) rfl (fun h => h) (fun _ => Or.inl hex) inv
  · exact invariant_quiet files s _ t Pc.claim Pc.check hpc (by simp) (by simp) rfl
      (le_refl _) (fun _ h _ => h) rfl (fun h => h) (by simp) inv
  · have hlen : files.length ≤ s.current_index := by
      rcases Nat.lt_or_ge s.current_index files.length with hl | hl
      · rw [List.getElem?_eq_getElem hl] at hf
        cases hf
      · exact hl
    refine invariant_quiet files s _ t Pc.exited Pc.claim hpc (by simp) (by simp) rfl
      (Nat.le_succ _) ?_ rfl (fun h => h) ?_ inv
    · intro i _ h2
      exact lt_of_lt_of_le h2 hlen
    · intro _
      right
      exact Nat.lt_succ_of_le hlen
  · exact invariant_claim files s _ t file hpc hf rfl rfl rfl rfl inv
  · exact invariant_begin files s _ t index file hpc rfl rfl rfl rfl inv
  · exact invariant_download files s _ t index file (Pc.end_file index file) hpc (by simp)
      (by simp) rfl rfl rfl rfl inv
  · exact invariant_download files s _ t index file (Pc.capture e) hpc (by simp)
      (by simp) rfl rfl rfl rfl inv
  · exact invariant_quiet files s _ t Pc.check (Pc.end_file index file) hpc (by simp)
      (by simp) rfl (le_refl _) (fun _ h _ => h) rfl (fun h => h) (by simp) inv
  · exact invariant_quiet files s _ t Pc.exited (Pc.capture e) hpc (by simp) (by simp) rfl
      (le_refl _) (fun _ h _ => h) rfl (fun _ => by simp [Pool.goto])
      (fun _ => Or.inl (by simp [Pool.goto])) inv

/-! ### The worker pool: every execution ends -/

theorem sum_weight_set (l : List Pc) (t : Nat) (a b : Pc) (h : l[t]? = some a) :
    ((l.set t b).map weight).sum + weight a = (l.map weight).sum + weight b := by
  induction l generalizing t with
  | nil => simp at h
  | cons x rest ih =>
    cases t with
    | zero =>
      simp only [List.getElem?_cons_zero, Option.some.injEq] at h
      subst h
      simp only [List.set_cons_zero, List.map_cons, List.sum_cons]
      omega
    | succ n =>
      simp only [List.getElem?_cons_succ] at h
      have := ih n h
      simp only [List.set_cons_succ, List.map_cons, List.sum_cons]
      omega

theorem step_potential (env : Env) (u : file_updater) (files : List file_info)
    (s s1 : Pool) (t : Nat) (h : step env u files s t = some s1) :
    potential files s1 < potential files s := by
  rcases step_cases env u files s s1 t h with
    ⟨hpc, _, rfl⟩ | ⟨hpc, _, rfl⟩ | ⟨hpc, hf, rfl⟩ | ⟨file, hpc, hf, rfl⟩ |
    ⟨index, file, hpc, rfl⟩ | ⟨index, file, w, hpc, _, rfl⟩ |
    ⟨index, file, e, w, hpc, _, rfl⟩ | ⟨index, file, hpc, rfl⟩ | ⟨e, hpc, rfl⟩
  · have := sum_weight_set s.threads t _ Pc.exited hpc
    simp only [potential, Pool.goto, weight] at this ⊢
    omega
  · have := sum_weight_set s.threads t _ Pc.claim hpc
    simp only [potential, Pool.goto, weight] at this ⊢
    omega
  · have := sum_weight_set s.threads t _ Pc.exited hpc
    simp only [potential, Pool.goto, weight] at this ⊢
    omega
  · have := sum_weight_set s.threads t _ (Pc.begin_file s.current_index file) hpc
    have hlen : s.current_index < files.length := by
      rcases Nat.lt_or_ge s.current_index files.length with hl | hl
      · exact hl
      · rw [List.getElem?_eq_none hl] at hf
        cases hf
    simp only [potential, Pool.goto, weight] at this ⊢
    omega
  · have := sum_weight_set s.threads t _ (Pc.update_file index file) hpc
    simp only [potential, Pool.goto, weight] at this ⊢
    omega
  · have := sum_weight_set s.threads t _ (Pc.end_file index file) hpc
    simp only [potential, Pool.goto, weight] at this ⊢
    omega
  · have := sum_weight_set s.threads t _ (Pc.capture e) hpc
    simp only [potential, Pool.goto, weight] at this ⊢
    omega
  · have := sum_weight_set s.threads t _ Pc.check hpc
    simp only [potential, Pool.goto, weight] at this ⊢
    omega
  · have := sum_weight_set s.threads t _ Pc.exited hpc
    simp only [potential, Pool.goto, weight] at this ⊢
    omega

/-- No execution is longer than the potential of its first state. -/
theorem exec_length (env : Env) (u : file_updater) (files : List file_info)
    (s s1 : Pool) (schedule : List Nat) (h : exec env u files s schedule = some s1) :
    schedule.length + potential files s1 ≤ potential files s := by
  induction schedule generalizing s with
  | nil =>
    simp only [exec, Option.some.injEq] at h
    subst h
    simp
  | cons t rest ih =>
    simp only [exec] at h
    cases hs : step env u files s t with
    | none => simp [hs] at h
    | some s2 =>
      simp only [hs] at h
      have h1 := ih s2 h
      have h2 := step_potential env u files s s2 t hs
      simp only [List.length_cons]
      omega

/-- A thread that has not returned can take a step. -/
theorem step_enabled (env : Env) (u : file_updater) (files : List file_info) (s : Pool)
    (t : Nat) (pc : Pc) (hpc : s.threads[t]? = some pc) (hne : pc ≠ Pc.exited) :
    ∃ s1, step env u files s t = some s1 := by
  unfold step
  simp only [hpc]
  cases pc with
  | check =>
    by_cases hex : s.exception.isSome = true
    · exact ⟨s.goto t Pc.exited, by simp only [hex, if_true]⟩
    · exact ⟨s.goto t Pc.claim, by simp only [hex, if_false, Bool.false_eq_true]⟩
  | claim =>
    cases hf : files[s.current_index]? with
    | none => exact ⟨_, rfl⟩
    | some file => exact ⟨_, rfl⟩
  | begin_file index file => exact ⟨_, rfl⟩
  | update_file index file =>
    cases hu : update_file env u s.world file with
    | mk r w =>
      cases r with
      | none => simp only [hu]; exact ⟨_, rfl⟩
      | some e => simp only [hu]; exact ⟨_, rfl⟩
  | end_file index file => exact ⟨_, rfl⟩
  | capture e => exact ⟨_, rfl⟩
  | exited => exact absurd rfl hne

theorem not_joined (s : Pool) (h : joined s = false) :
    ∃ (t : Nat) (pc : Pc), s.threads[t]? = some pc ∧ pc ≠ Pc.exited := by
  unfold joined at h
  rw [List.all_eq_false] at h
  obtain ⟨pc, hmem, hpc⟩ := h
  obtain ⟨t, ht, hget⟩ := List.getElem_of_mem hmem
  refine ⟨t, pc, ?_, by simpa using hpc⟩
  rw [List.getElem?_eq_getElem ht, hget]

/-- From every state some schedule leads to a state in which all threads have
returned. -/
theorem exists_joined (env : Env) (u : file_updater) (files : List file_info) (n : Nat)
    (s : Pool) (hn : potential files s ≤ n) :
    ∃ schedule s1, exec env u files s schedule = some s1 ∧ joined s1 = true := by
  induction n generalizing s with
  | zero =>
    cases hj : joined s with
    | true => exact ⟨[], s, rfl, hj⟩
    | false =>
      obtain ⟨t, pc, hpc, hne⟩ := not_joined s hj
      obtain ⟨s1, hs⟩ := step_enabled env u files s t pc hpc hne
      have := step_potential env u files s s1 t hs
      omega
  | succ n ih =>
    cases hj : joined s with
    | true => exact ⟨[], s, rfl, hj⟩
    | false =>
      obtain ⟨t, pc, hpc, hne⟩ := not_joined s hj
      obtain ⟨s1, hs⟩ := step_enabled env u files s t pc hpc hne
      have hp := step_potential env u files s s1 t hs
      obtain ⟨schedule, s2, h2, hj2⟩ := ih s1 (by omega)
      refine ⟨t :: schedule, s2, ?_, hj2⟩
      simp only [exec, hs, h2]

/-! ### The worker pool: claims, downloads and the exception slot -/

theorem pool_start_invariant (files : List file_info) (w : World) (k : Nat) :
    pool_invariant files (pool_start w k) := by
  have hth : ∀ (t : Nat) (pc : Pc), (pool_start w k).threads[t]? = some pc → pc = Pc.check := by
    intro t pc h
    simp only [pool_start] at h
    rw [List.getElem?_replicate] at h
    split at h
    · injection h with h; exact h.symm
    · cases h
  have hno : ∀ t i f, ¬ holds (pool_start w k) t i f := by
    intro t i f h
    rcases h with h | h <;> · have := hth t _ h; cases this
  constructor
  · intro t i f h; exact absurd h (hno t i f)
  · intro t i f h; exact absurd h (hno t i f)
  · intro t i f h; exact absurd h (hno t i f)
  · intro t l i f g h; exact absurd h (hno t i f)
  · intro i hi; simp [pool_start] at hi
  · simp [pool_start]
  · intro i hi; simp [pool_start] at hi
  · intro t h; have := hth t _ h; cases this

theorem exec_pool_invariant (env : Env) (u : file_updater) (files : List file_info)
    (w : World) (k : Nat) (schedule : List Nat) (s : Pool)
    (h : exec env u files (pool_start w k) schedule = some s) :
    pool_invariant files s ∧ s.threads.length = k ∧
      s.claims.map Prod.snd = List.range s.current_index ∧
      s.exception = s.captures.getLast?.map Prod.snd := by
  refine exec_invariant env u files
    (fun s => pool_invariant files s ∧ s.threads.length = k ∧
      s.claims.map Prod.snd = List.range s.current_index ∧
      s.exception = s.captures.getLast?.map Prod.snd) ?_ (pool_start w k) s schedule ?_ h
  · intro s t s1 ⟨h1, h2, h3, h4⟩ hs
    refine ⟨step_invariant env u files s s1 t h1 hs, ?_,
      step_claims_range env u files s s1 t h3 hs, step_slot env u files s s1 t h4 hs⟩
    rcases step_cases env u files s s1 t hs with
      ⟨_, _, rfl⟩ | ⟨_, _, rfl⟩ | ⟨_, _, rfl⟩ | ⟨_, _, _, rfl⟩ | ⟨_, _, _, rfl⟩ |
      ⟨_, _, _, _, _, rfl⟩ | ⟨_, _, _, _, _, _, rfl⟩ | ⟨_, _, _, rfl⟩ | ⟨_, _, rfl⟩ <;>
    simp [Pool.goto, h2]
  · exact ⟨pool_start_invariant files w k, by simp [pool_start], by simp [pool_start],
      by simp [pool_start]⟩

theorem update_files_pool_some (env : Env) (u : file_updater) (w : World)
    (files : List file_info) (schedule : List Nat) (s : Pool)
    (h : update_files_pool env u w files schedule = some s) :
    exec env u files (pool_start (notify w (Event.update_files files))
      (get_optimal_concurrent_download_count env.hardware_concurrency files.length))
      schedule = some s ∧ joined s = true := by
  unfold update_files_pool at h
  simp only at h
  cases he : exec env u files (pool_start (notify w (Event.update_files files))
      (get_optimal_concurrent_download_count env.hardware_concurrency files.length))
      schedule with
  | none => simp [he] at h
  | some s1 =>
    simp only [he] at h
    by_cases hj : joined s1 = true
    · simp only [hj, if_true, Option.some.injEq] at h
      subst h
      exact ⟨rfl, hj⟩
    · simp [hj] at h

theorem thread_count_pos (h n : Nat) : 1 ≤ get_optimal_concurrent_download_count h n := by
  unfold get_optimal_concurrent_download_count
  exact Nat.le_max_left _ _

theorem joined_exited (s : Pool) (h : joined s = true) (t : Nat) (pc : Pc)
    (hpc : s.threads[t]? = some pc) : pc = Pc.exited := by
  unfold joined at h
  rw [List.all_eq_true] at h
  have hm : pc ∈ s.threads := List.getElem?_mem hpc
  simpa using h pc hm

/-- The call of `update_files` returns under some schedule, and no schedule lets it run for
more than `2 * threads + 5 * files` steps. -/
theorem update_files_pool_returns (env : Env) (u : file_updater) (w : World)
    (files : List file_info) :
    (∃ schedule s, update_files_pool env u w files schedule = some s) ∧
    ∀ schedule s, update_files_pool env u w files schedule = some s →
      schedule.length ≤
        2 * get_optimal_concurrent_download_count env.hardware_concurrency files.length +
          5 * files.length := by
  have hp : potential files (pool_start (notify w (Event.update_files files))
      (get_optimal_concurrent_download_count env.hardware_concurrency files.length)) =
      2 * get_optimal_concurrent_download_count env.hardware_concurrency files.length +
        5 * files.length := by
    simp [potential, pool_start, weight]
    ring
  constructor
  · obtain ⟨schedule, s, h1, h2⟩ := exists_joined env u files _
      (pool_start (notify w (Event.update_files files))
        (get_optimal_concurrent_download_count env.hardware_concurrency files.length))
      (le_refl _)
    refine ⟨schedule, s, ?_⟩
    unfold update_files_pool
    simp only [h1, h2, if_true]
  · intro schedule s h
    have h1 := (update_files_pool_some env u w files schedule s h).1
    have := exec_length env u files _ s schedule h1
    rw [hp] at this
    omega

/-- C8, as stated, fails: with two threads whose downloads both fail, the slot is
written twice; it first holds the error of `a.txt`, and the error rethrown after
the joins is the later one, of `c.txt`. -/
theorem exception_slot_overwritten :
    (update_files_pool ex_env ex_updater ex_world [ex_a, ex_c]
        [0, 1, 0, 1, 0, 1, 0, 1, 0, 1]).map (fun s => s.captures) =
      some [(0, ex_error_a), (1, ex_error_c)] ∧
    ex_error_a ≠ ex_error_c ∧
    (update_files ex_env ex_updater ex_world [ex_a, ex_c]
        [0, 1, 0, 1, 0, 1, 0, 1, 0, 1]).map (fun r => r.1) = some (some ex_error_c) := by
  decide

/-- C8, amended: the slot is never cleared once it is set, but every failing
thread overwrites it: after each step it holds the error written last, a thread
in its `catch` block stores its own error whatever the slot held, and the error
`update_files` rethrows after the joins is the one written last. -/
theorem exception_slot_last_writer (env : Env) (u : file_updater) (w : World)
    (files : List file_info) (before : List Nat) (t : Nat) (s s1 : Pool) (k : Nat)
    (h : exec env u files (pool_start w k) before = some s)
    (hs : step env u files s t = some s1) :
    s1.exception = s1.captures.getLast?.map Prod.snd ∧
    (s.exception ≠ none → s1.exception ≠ none) ∧
    (∀ e, s.threads[t]? = some (Pc.capture e) →
      s1.exception = some e ∧ s1.captures = s.captures ++ [(t, e)]) ∧
    (∀ schedule r, update_files env u w files schedule = some r →
      ∃ s2, update_files_pool env u w files schedule = some s2 ∧
        r.1 = s2.exception ∧ r.1 = s2.captures.getLast?.map Prod.snd) := by
  obtain ⟨_, _, _, hslot⟩ := exec_pool_invariant env u files w k before s h
  refine ⟨step_slot env u files s s1 t hslot hs,
    fun hx => step_slot_stays env u files s s1 t hx hs, ?_, ?_⟩
  · intro e hpc
    unfold step at hs
    simp only [hpc, Option.some.injEq] at hs
    subst hs
    simp [Pool.goto]
  · intro schedule r hr
    unfold update_files at hr
    cases hp : update_files_pool env u w files schedule with
    | none => simp [hp] at hr
    | some s2 =>
      simp only [hp] at hr
      obtain ⟨hexec, _⟩ := update_files_pool_some env u w files schedule s2 hp
      obtain ⟨_, _, _, hslot2⟩ := exec_pool_invariant env u files _ _ schedule s2 hexec
      refine ⟨s2, rfl, ?_⟩
      cases hx : s2.exception with
      | none =>
        simp only [hx, Option.some.injEq] at hr
        subst hr
        exact ⟨rfl, by rw [← hslot2, hx]⟩
      | some e =>
        simp only [hx, Option.some.injEq] at hr
        subst hr
        exact ⟨rfl, by rw [← hslot2, hx]⟩

/-! ### The disk after the downloads -/

theorem string_append_left_cancel (a b c : String) (h : a ++ b = a ++ c) : b = c := by
  have h1 := congrArg String.data h
  simp only [String.data_append] at h1
  exact String.ext (List.append_cancel_left h1)

theorem lookup_erase_ne (disk : Disk) (p q : String) (h : q ≠ p) :
    lookup (erase disk p) q = lookup disk q := by
  induction disk with
  | nil => rfl
  | cons e rest ih =>
    obtain ⟨k, n⟩ := e
    by_cases hk : k = p
    · have hkq : ¬ k = q := fun hq => h (hq.symm.trans hk)
      simp only [erase, List.filter_cons, hk, ne_eq, not_true_eq_false, decide_False,
        Bool.false_eq_true, if_false, lookup] at ih ⊢
      rw [ih]
      simp [hk ▸ hkq]
    · simp only [erase, List.filter_cons, hk, ne_eq, not_false_eq_true, decide_True,
        if_true, lookup] at ih ⊢
      rw [ih]

theorem lookup_erase_self (disk : Disk) (p : String) : lookup (erase disk p) p = none := by
  induction disk with
  | nil => rfl
  | cons e rest ih =>
    obtain ⟨k, n⟩ := e
    by_cases hk : k = p
    · simp only [erase, List.filter_cons, hk, ne_eq, not_true_eq_false, decide_False,
        Bool.false_eq_true, if_false] at ih ⊢
      exact ih
    · simp only [erase, List.filter_cons, hk, ne_eq, not_false_eq_true, decide_True,
        if_true, lookup] at ih ⊢
      exact ih

theorem write_file_lookup_other (env : Env) (disk disk1 : Disk) (p q data : String)
    (h : write_file env disk p data = some disk1) (hq : q ≠ p) :
    lookup disk1 q = lookup disk q := by
  unfold write_file at h
  split at h
  · cases h
  · split at h
    · cases h
    · injection h with h
      subst h
      have : ¬ p = q := fun h => hq h.symm
      simp only [lookup, this, if_false]
      exact lookup_erase_ne disk p q hq

theorem update_file_none (env : Env) (u : file_updater) (w w1 : World) (file : file_info)
    (h : update_file env u w file = (none, w1)) :
    ∃ data disk, checked_body env file = some data ∧
      write_file env w.disk (get_drive_filename u file) data = some disk ∧
      w1 = { w with disk := disk } := by
  rw [update_file_eq] at h
  cases hc : checked_body env file with
  | none => simp [hc] at h
  | some data =>
    simp only [hc] at h
    cases hw : write_file env w.disk (get_drive_filename u file) data with
    | none => simp [hw] at h
    | some disk =>
      simp only [hw, Prod.mk.injEq, true_and] at h
      exact ⟨data, disk, rfl, hw, h.symm⟩

theorem update_file_some (env : Env) (u : file_updater) (w w1 : World) (file : file_info)
    (e : Error) (h : update_file env u w file = (some e, w1)) : w1 = w := by
  rw [update_file_eq] at h
  cases hc : checked_body env file with
  | none =>
    simp only [hc, Prod.mk.injEq] at h
    exact h.2.symm
  | some data =>
    simp only [hc] at h
    cases hw : write_file env w.disk (get_drive_filename u file) data with
    | none =>
      simp only [hw, Prod.mk.injEq] at h
      exact h.2.symm
    | some disk => simp [hw] at h

theorem checked_body_passes (env : Env) (file : file_info) (data : String)
    (h : checked_body env file = some data) :
    size_mismatch data.length file.size = false ∧ get_hash env data = file.hash := by
  unfold checked_body at h
  cases hget : env.http_get (get_update_folder env ++ file.name) with
  | none => simp [hget] at h
  | some body =>
    simp only [hget] at h
    by_cases hc : (size_mismatch body.length file.size ||
        decide (get_hash env body ≠ file.hash)) = true
    · simp only [hc, if_true] at h
      cases h
    · simp only [hc, if_false, Option.some.injEq, Bool.false_eq_true] at h
      subst h
      simp only [Bool.or_eq_true, decide_eq_true_eq, not_or, Bool.not_eq_true, ne_eq,
        not_not] at hc
      exact hc

theorem valid_copy_not_outdated (env : Env) (u : file_updater) (disk : Disk) (f : file_info)
    (h : has_valid_copy env u disk f) : is_outdated_file env u disk f = false := by
  obtain ⟨data, hc, hr⟩ := h
  obtain ⟨h1, h2⟩ := checked_body_passes env f data hc
  unfold is_outdated_file
  split
  · rfl
  · simp [hr, h1, h2]

/-- A run without failure so far has had none before the step either. -/
theorem no_failure_back (env : Env) (u : file_updater) (files : List file_info)
    (s s1 : Pool) (t : Nat) (h : step env u files s t = some s1)
    (hx : s1.exception = none)
    (hc : ∀ (k : Nat) (e : Error), s1.threads[k]? ≠ some (Pc.capture e)) :
    s.exception = none ∧ ∀ (k : Nat) (e : Error), s.threads[k]? ≠ some (Pc.capture e) := by
  have key : ∀ (pc pc0 : Pc), s.threads[t]? = some pc0 → s1.threads = s.threads.set t pc →
      (∀ e, pc0 ≠ Pc.capture e) →
      ∀ (k : Nat) (e : Error), s.threads[k]? ≠ some (Pc.capture e) := by
    intro pc pc0 hpc0 hth hn k e hk
    by_cases hkt : k = t
    · rw [hkt, hpc0] at hk
      injection hk with hk
      exact hn e hk
    · have := threads_set s s1 t k pc pc0 hth hpc0
      simp only [hkt, if_false] at this
      exact hc k e (this.trans hk)
  rcases step_cases env u files s s1 t h with
    ⟨hpc, _, rfl⟩ | ⟨hpc, _, rfl⟩ | ⟨hpc, _, rfl⟩ | ⟨file, hpc, _, rfl⟩ |
    ⟨index, file, hpc, rfl⟩ | ⟨index, file, w, hpc, _, rfl⟩ |
    ⟨index, file, e, w, hpc, _, rfl⟩ | ⟨index, file, hpc, rfl⟩ | ⟨e, hpc, rfl⟩
  · exact ⟨hx, key _ _ hpc rfl (by simp)⟩
  · exact ⟨hx, key _ _ hpc rfl (by simp)⟩
  · exact ⟨hx, key _ _ hpc rfl (by simp)⟩
  · exact ⟨hx, key _ _ hpc rfl (by simp)⟩
  · exact ⟨hx, key _ _ hpc rfl (by simp)⟩
  · exact ⟨hx, key _ _ hpc rfl (by simp)⟩
  · exact ⟨hx, key _ _ hpc rfl (by simp)⟩
  · exact ⟨hx, key _ _ hpc rfl (by simp)⟩
  · simp [Pool.goto] at hx

/-! ### Failed downloads, claimed indices -/

/-- No download has failed exactly when the slot is empty and no thread is about
to write it. -/
theorem step_failures (env : Env) (u : file_updater) (files : List file_info)
    (s s1 : Pool) (t : Nat)
    (h0 : s.failures = [] ↔
      (s.exception = none ∧ ∀ (k : Nat) (e : Error), s.threads[k]? ≠ some (Pc.capture e)))
    (h : step env u files s t = some s1) :
    s1.failures = [] ↔
      (s1.exception = none ∧ ∀ (k : Nat) (e : Error), s1.threads[k]? ≠ some (Pc.capture e)) := by
  -- a step that neither fails nor writes the slot
  have quiet : ∀ (pc pc0 : Pc), s.threads[t]? = some pc0 → s1.threads = s.threads.set t pc →
      (∀ e, pc ≠ Pc.capture e) → s1.failures = s.failures → s1.exception = s.exception →
      (s1.failures = [] ↔
        (s1.exception = none ∧
          ∀ (k : Nat) (e : Error), s1.threads[k]? ≠ some (Pc.capture e))) := by
    intro pc pc0 hpc0 hth hn hf hx
    constructor
    · intro hf1
      obtain ⟨hx0, hc0⟩ := h0.mp (hf ▸ hf1)
      refine ⟨hx ▸ hx0, ?_⟩
      intro k e hk
      rw [threads_set s s1 t k pc pc0 hth hpc0] at hk
      by_cases hkt : k = t
      · simp only [hkt, if_true, Option.some.injEq] at hk
        exact hn e hk
      · simp only [hkt, if_false] at hk
        exact hc0 k e hk
    · intro ⟨hx1, hc1⟩
      rw [hf]
      exact h0.mpr (no_failure_back env u files s s1 t h hx1 hc1)
  rcases step_cases env u files s s1 t h with
    ⟨hpc, _, hs⟩ | ⟨hpc, _, hs⟩ | ⟨hpc, _, hs⟩ | ⟨file, hpc, _, hs⟩ |
    ⟨index, file, hpc, hs⟩ | ⟨index, file, w, hpc, _, hs⟩ |
    ⟨index, file, e, w, hpc, _, hs⟩ | ⟨index, file, hpc, hs⟩ | ⟨e, hpc, hs⟩
  · exact quiet _ _ hpc (by rw [hs]; rfl) (by simp) (by rw [hs]; rfl) (by rw [hs]; rfl)
  · exact quiet _ _ hpc (by rw [hs]; rfl) (by simp) (by rw [hs]; rfl) (by rw [hs]; rfl)
  · exact quiet _ _ hpc (by rw [hs]; rfl) (by simp) (by rw [hs]; rfl) (by rw [hs]; rfl)
  · exact quiet _ _ hpc (by rw [hs]; rfl) (by simp) (by rw [hs]; rfl) (by rw [hs]; rfl)
  · exact quiet _ _ hpc (by rw [hs]; rfl) (by simp) (by rw [hs]; rfl) (by rw [hs]; rfl)
  · exact quiet _ _ hpc (by rw [hs]; rfl) (by simp) (by rw [hs]; rfl) (by rw [hs]; rfl)
  · constructor
    · intro hf1
      rw [hs] at hf1
      simp [Pool.goto] at hf1
    · intro ⟨_, hc1⟩
      have := threads_set s s1 t t (Pc.capture e) _ (by rw [hs]; rfl) hpc
      simp only [if_true] at this
      exact absurd this (hc1 t e)
  · exact quiet _ _ hpc (by rw [hs]; rfl) (by simp) (by rw [hs]; rfl) (by rw [hs]; rfl)
  · constructor
    · intro hf1
      have hf0 : s.failures = [] := by
        rw [hs] at hf1
        exact hf1
      exact absurd hpc ((h0.mp hf0).2 t e)
    · intro ⟨hx1, _⟩
      rw [hs] at hx1
      simp [Pool.goto] at hx1

/-- When the threads are joined, no download has failed exactly when the slot is
empty. -/
theorem joined_failures (env : Env) (u : file_updater) (files : List file_info)
    (w : World) (k : Nat) (schedule : List Nat) (s : Pool)
    (h : exec env u files (pool_start w k) schedule = some s) (hj : joined s = true) :
    s.failures = [] ↔ s.exception = none := by
  have hinv : s.failures = [] ↔
      (s.exception = none ∧
        ∀ (k : Nat) (e : Error), s.threads[k]? ≠ some (Pc.capture e)) := by
    refine exec_invariant env u files
      (fun s => s.failures = [] ↔
        (s.exception = none ∧ ∀ (k : Nat) (e : Error), s.threads[k]? ≠ some (Pc.capture e)))
      (fun s t s1 h0 hs => step_failures env u files s s1 t h0 hs)
      (pool_start w k) s schedule ?_ h
    simp only [pool_start, true_and, true_iff]
    intro t e ht
    rw [List.getElem?_replicate] at ht
    split at ht
    · cases ht
    · cases ht
  rw [hinv]
  constructor
  · intro h1; exact h1.1
  · intro h1
    refine ⟨h1, ?_⟩
    intro t e ht
    have := joined_exited s hj t _ ht
    cases this

/-- C9: when the threads of `update_files` are joined, every spawned thread has
returned; and when no download has failed, which then is the same as an empty
exception slot, every index below the number of files was claimed by exactly
one thread and `update_file` ran exactly once for it.  The call does return:
some schedule leads to the joins. -/
theorem update_files_each_index_once (env : Env) (u : file_updater) (w : World)
    (files : List file_info) (schedule : List Nat) (s : Pool)
    (h : update_files_pool env u w files schedule = some s) :
    (∃ schedule1 s1, update_files_pool env u w files schedule1 = some s1) ∧
    (s.threads.length =
        get_optimal_concurrent_download_count env.hardware_concurrency files.length ∧
      ∀ pc ∈ s.threads, pc = Pc.exited) ∧
    (s.failures = [] ↔ s.exception = none) ∧
    (s.failures = [] →
      (∀ i, i < files.length →
        ∃ t, (t, i) ∈ s.claims ∧ (∀ k, (k, i) ∈ s.claims → k = t) ∧
          (s.claims.map Prod.snd).count i = 1) ∧
      (∀ i, i < files.length → s.downloads.count i = 1) ∧
      (∀ i ∈ s.downloads, i < files.length)) := by
  obtain ⟨hexec, hj⟩ := update_files_pool_some env u w files schedule s h
  obtain ⟨inv, hlen, hclaims, _⟩ := exec_pool_invariant env u files _ _ schedule s hexec
  have hfail := joined_failures env u files _ _ schedule s hexec hj
  refine ⟨(update_files_pool_returns env u w files).1, ⟨hlen, ?_⟩, hfail, ?_⟩
  · intro pc hpc
    obtain ⟨t, ht, hget⟩ := List.getElem_of_mem hpc
    exact joined_exited s hj t pc (by rw [List.getElem?_eq_getElem ht, hget])
  · intro hnofail
    have hok : s.exception = none := hfail.mp hnofail
    have hpos := thread_count_pos env.hardware_concurrency files.length
    have h0 : s.threads[0]? = some Pc.exited := by
      have hlt : 0 < s.threads.length := by omega
      rw [List.getElem?_eq_getElem hlt]
      exact congrArg some (joined_exited s hj 0 _ (List.getElem?_eq_getElem hlt))
    have hcur : files.length < s.current_index := by
      rcases inv.exited 0 h0 with hx | hx
      · exact absurd hok hx
      · exact hx
    have hnodup : (s.claims.map Prod.snd).Nodup := by
      rw [hclaims]
      exact List.nodup_range _
    refine ⟨?_, ?_, ?_⟩
    · intro i hi
      have hmem : i ∈ s.claims.map Prod.snd := by
        rw [hclaims, List.mem_range]
        omega
      obtain ⟨⟨t, j⟩, hc, hj2⟩ := List.mem_map.mp hmem
      simp only at hj2
      subst hj2
      refine ⟨t, hc, ?_, List.count_eq_one_of_mem hnodup hmem⟩
      intro k hk
      have := List.inj_on_of_nodup_map hnodup hk hc rfl
      exact (Prod.mk.inj this).1
    · intro i hi
      rcases inv.complete i (by omega) hi with hd | ⟨t, f, hh⟩
      · exact List.count_eq_one_of_mem inv.downloads_nodup hd
      · rcases hh with hh | hh <;> · have := joined_exited s hj t _ hh; cases this
    · intro i hi
      exact (inv.downloads_lt i hi).2

theorem disk_invariant_same (env : Env) (u : file_updater) (files : List file_info)
    (disk0 : Disk) (s s1 : Pool) (t : Nat) (h : step env u files s t = some s1)
    (hdisk : s1.world.disk = s.world.disk) (hd : s1.downloads = s.downloads)
    (inv : disk_invariant env u files disk0 s) : disk_invariant env u files disk0 s1 := by
  constructor
  · intro p hp
    rw [hdisk]
    exact inv.untouched p hp
  · intro hx hc i hi f hf
    obtain ⟨hx0, hc0⟩ := no_failure_back env u files s s1 t h hx hc
    rw [hd] at hi
    rw [hdisk]
    exact inv.valid hx0 hc0 i hi f hf

/-- Every step keeps the disk invariant, when different files have different
target paths. -/
theorem step_disk_invariant (env : Env) (u : file_updater) (files : List file_info)
    (disk0 : Disk) (s s1 : Pool) (t : Nat)
    (hinj : ∀ f ∈ files, ∀ g ∈ files,
      get_drive_filename u f = get_drive_filename u g → f = g)
    (pinv : pool_invariant files s)
    (inv : disk_invariant env u files disk0 s)
    (h : step env u files s t = some s1) : disk_invariant env u files disk0 s1 := by
  rcases step_cases env u files s s1 t h with
    ⟨hpc, _, hs⟩ | ⟨hpc, _, hs⟩ | ⟨hpc, _, hs⟩ | ⟨file, hpc, _, hs⟩ |
    ⟨index, file, hpc, hs⟩ | ⟨index, file, w, hpc, hu, hs⟩ |
    ⟨index, file, e, w, hpc, hu, hs⟩ | ⟨index, file, hpc, hs⟩ | ⟨e, hpc, hs⟩
  · exact disk_invariant_same env u files disk0 s s1 t h (by rw [hs]; rfl) (by rw [hs]; rfl) inv
  · exact disk_invariant_same env u files disk0 s s1 t h (by rw [hs]; rfl) (by rw [hs]; rfl) inv
  · exact disk_invariant_same env u files disk0 s s1 t h (by rw [hs]; rfl) (by rw [hs]; rfl) inv
  · exact disk_invariant_same env u files disk0 s s1 t h (by rw [hs]; rfl) (by rw [hs]; rfl) inv
  · exact disk_invariant_same env u files disk0 s s1 t h (by rw [hs]; rfl) (by rw [hs]; rfl) inv
  · obtain ⟨data, disk, hcb, hw, hw1⟩ := update_file_none env u s.world w file hu
    have hfile : files[index]? = some file := pinv.holds_file t index file (Or.inr hpc)
    have hmem : file ∈ files := List.getElem?_mem hfile
    have hdisk : s1.world.disk = disk := by rw [hs, hw1]; rfl
    have hdl : s1.downloads = s.downloads ++ [index] := by rw [hs]; rfl
    constructor
    · intro p hp
      rw [hdisk, write_file_lookup_other env _ _ _ p data hw (hp file hmem).symm]
      exact inv.untouched p hp
    · intro hx hc i hi f hf
      obtain ⟨hx0, hc0⟩ := no_failure_back env u files s s1 t h hx hc
      rw [hdisk]
      by_cases htar : get_drive_filename u f = get_drive_filename u file
      · have hff : f = file := hinj f (List.getElem?_mem hf) file hmem htar
        subst hff
        exact ⟨data, hcb, read_file_write env _ _ _ _ hw⟩
      · rw [hdl] at hi
        simp only [List.mem_append, List.mem_singleton] at hi
        rcases hi with hi | hi
        · obtain ⟨d2, hc2, hr2⟩ := inv.valid hx0 hc0 i hi f hf
          refine ⟨d2, hc2, ?_⟩
          unfold read_file at hr2 ⊢
          rw [write_file_lookup_other env _ _ _ _ data hw htar]
          exact hr2
        · subst hi
          rw [hfile] at hf
          injection hf with hf
          subst hf
          exact absurd rfl htar
  · have hw1 := update_file_some env u s.world w file e hu
    constructor
    · intro p hp
      rw [hs, hw1]
      exact inv.untouched p hp
    · intro _ hc
      have := threads_set s s1 t t (Pc.capture e) _ (by rw [hs]; rfl) hpc
      simp only [if_true] at this
      exact absurd this (hc t e)
  · exact disk_invariant_same env u files disk0 s s1 t h (by rw [hs]; rfl) (by rw [hs]; rfl) inv
  · exact disk_invariant_same env u files disk0 s s1 t h (by rw [hs]; rfl) (by rw [hs]; rfl) inv

theorem pool_start_disk_invariant (env : Env) (u : file_updater) (files : List file_info)
    (w : World) (e : Event) (k : Nat) :
    disk_invariant env u files w.disk (pool_start (notify w e) k) := by
  constructor
  · intro p _
    rfl
  · intro _ _ i hi
    simp [pool_start] at hi

theorem exec_disk_invariant (env : Env) (u : file_updater) (files : List file_info)
    (w : World) (e : Event) (k : Nat) (schedule : List Nat) (s : Pool)
    (hinj : ∀ f ∈ files, ∀ g ∈ files,
      get_drive_filename u f = get_drive_filename u g → f = g)
    (h : exec env u files (pool_start (notify w e) k) schedule = some s) :
    pool_invariant files s ∧ disk_invariant env u files w.disk s := by
  refine exec_invariant env u files
    (fun s => pool_invariant files s ∧ disk_invariant env u files w.disk s) ?_
    (pool_start (notify w e) k) s schedule ?_ h
  · intro s t s1 ⟨h1, h2⟩ hs
    exact ⟨step_invariant env u files s s1 t h1 hs,
      step_disk_invariant env u files w.disk s s1 t hinj h1 h2 hs⟩
  · exact ⟨pool_start_invariant files _ k, pool_start_disk_invariant env u files w e k⟩

/-- When the threads are joined and the slot is empty, `update_file` has run for
every index. -/
theorem joined_all_downloaded (files : List file_info) (s : Pool)
    (inv : pool_invariant files s) (hj : joined s = true) (hlen : 1 ≤ s.threads.length)
    (hok : s.exception = none) (i : Nat) (hi : i < files.length) : i ∈ s.downloads := by
  have h0 : s.threads[0]? = some Pc.exited := by
    have hlt : 0 < s.threads.length := by omega
    rw [List.getElem?_eq_getElem hlt]
    exact congrArg some (joined_exited s hj 0 _ (List.getElem?_eq_getElem hlt))
  have hcur : files.length < s.current_index := by
    rcases inv.exited 0 h0 with hx | hx
    · exact absurd hok hx
    · exact hx
  rcases inv.complete i (by omega) hi with hd | ⟨t, f, hh⟩
  · exact hd
  · rcases hh with hh | hh <;> · have := joined_exited s hj t _ hh; cases this

theorem update_files_none (env : Env) (u : file_updater) (w w1 : World)
    (files : List file_info) (schedule : List Nat)
    (h : update_files env u w files schedule = some (none, w1)) :
    ∃ s, update_files_pool env u w files schedule = some s ∧ s.exception = none ∧
      w1 = notify s.world Event.done_update := by
  unfold update_files at h
  cases hp : update_files_pool env u w files schedule with
  | none => simp [hp] at h
  | some s =>
    simp only [hp] at h
    cases hx : s.exception with
    | none =>
      simp only [hx, Option.some.injEq, Prod.mk.injEq, true_and] at h
      exact ⟨s, rfl, hx, h.symm⟩
    | some e => simp [hx] at h

theorem update_files_some (env : Env) (u : file_updater) (w w1 : World)
    (files : List file_info) (schedule : List Nat) (e : Error)
    (h : update_files env u w files schedule = some (some e, w1)) :
    ∃ s, update_files_pool env u w files schedule = some s ∧ s.exception = some e ∧
      w1 = s.world := by
  unfold update_files at h
  cases hp : update_files_pool env u w files schedule with
  | none => simp [hp] at h
  | some s =>
    simp only [hp] at h
    cases hx : s.exception with
    | none => simp [hx] at h
    | some e1 =>
      simp only [hx, Option.some.injEq, Prod.mk.injEq] at h
      exact ⟨s, rfl, by rw [hx, h.1], h.2.symm⟩

theorem outdated_of_mem (env : Env) (u : file_updater) (disk : Disk) (files : List file_info)
    (f : file_info) :
    f ∈ get_outdated_files env u disk files ↔
      f ∈ files ∧ is_outdated_file env u disk f = true := by
  rw [get_outdated_files_eq_filter, List.mem_filter]

/-- Records that `is_outdated_file` examines on the disk are the same record when
they have the same target path, if names are not repeated and records with
different names are written to different places. -/
theorem target_injective (env : Env) (u : file_updater) (files : List file_info)
    (hnames : (files.map file_info.name).Nodup)
    (htargets : ∀ f ∈ files, ∀ g ∈ files,
      (env.ci_build = true ∨ f.name ≠ UPDATE_HOST_BINARY) →
      (env.ci_build = true ∨ g.name ≠ UPDATE_HOST_BINARY) →
      canonical env (get_drive_filename u f) = canonical env (get_drive_filename u g) →
      f.name = g.name)
    (f g : file_info) (hf : f ∈ files) (hg : g ∈ files)
    (rf : env.ci_build = true ∨ f.name ≠ UPDATE_HOST_BINARY)
    (rg : env.ci_build = true ∨ g.name ≠ UPDATE_HOST_BINARY)
    (h : get_drive_filename u f = get_drive_filename u g) : f = g :=
  List.inj_on_of_nodup_map hnames hf hg (htargets f hf g hg rf rg (by rw [h]))

theorem outdated_examined (env : Env) (u : file_updater) (disk : Disk) (f : file_info)
    (h : is_outdated_file env u disk f = true) :
    env.ci_build = true ∨ f.name ≠ UPDATE_HOST_BINARY := by
  unfold is_outdated_file at h
  by_cases hci : env.ci_build = true
  · exact Or.inl hci
  · right
    intro hn
    simp [hci, hn] at h

/-- C3, as stated, fails: in a build with `CI_BUILD` whose process file is the
content file `b.txt`, the records `xlabs.exe` and `b.txt` have different names
and one target path; `update_files` downloads both without error, the second
download replaces the first, and the record `xlabs.exe` is outdated again. -/
theorem shared_target_outdated :
    ([ex_host, ex_b].map file_info.name).Nodup ∧
    get_drive_filename ex_updater_shared ex_host = get_drive_filename ex_updater_shared ex_b ∧
    get_outdated_files ex_env_ci ex_updater_shared ex_world_shared.disk [ex_host, ex_b] =
      [ex_host, ex_b] ∧
    (update_files ex_env_ci ex_updater_shared ex_world_shared
        (get_outdated_files ex_env_ci ex_updater_shared ex_world_shared.disk [ex_host, ex_b])
        [0, 0, 0, 0, 0, 0, 0, 0, 0, 0, 0, 0, 1, 1]).map
      (fun r => (r.1, read_file r.2.disk "/root/data/b.txt",
        get_outdated_files ex_env_ci ex_updater_shared r.2.disk [ex_host, ex_b])) =
      some (none, some "xyz", [ex_host]) := by
  decide

/-- C3, amended: for a manifest with pairwise distinct names whose examined
records (all records in a build with `CI_BUILD`, the records other than the one
of the host binary otherwise) are written to different places when their names
differ, if `update_files` on the outdated files of the manifest returns without
error, the manifest has no outdated file on the resulting disk. -/
theorem outdated_empty_after_update (env : Env) (u : file_updater) (w w1 : World)
    (manifest : List file_info) (schedule : List Nat)
    (hnames : (manifest.map file_info.name).Nodup)
    (htargets : ∀ f ∈ manifest, ∀ g ∈ manifest,
      (env.ci_build = true ∨ f.name ≠ UPDATE_HOST_BINARY) →
      (env.ci_build = true ∨ g.name ≠ UPDATE_HOST_BINARY) →
      canonical env (get_drive_filename u f) = canonical env (get_drive_filename u g) →
      f.name = g.name)
    (h : update_files env u w (get_outdated_files env u w.disk manifest) schedule =
      some (none, w1)) :
    get_outdated_files env u w1.disk manifest = [] := by
  obtain ⟨s, hp, hok, hw1⟩ := update_files_none env u w w1 _ schedule h
  obtain ⟨hexec, hj⟩ := update_files_pool_some env u w _ schedule s hp
  have hinj : ∀ f ∈ get_outdated_files env u w.disk manifest,
      ∀ g ∈ get_outdated_files env u w.disk manifest,
      get_drive_filename u f = get_drive_filename u g → f = g := by
    intro f hf g hg htar
    rw [outdated_of_mem] at hf hg
    exact target_injective env u manifest hnames htargets f g hf.1 hg.1
      (outdated_examined env u w.disk f hf.2) (outdated_examined env u w.disk g hg.2) htar
  obtain ⟨pinv, dinv⟩ := exec_disk_invariant env u _ w _ _ schedule s hinj hexec
  obtain ⟨_, hlen, _, _⟩ := exec_pool_invariant env u _ _ _ schedule s hexec
  have hpos := thread_count_pos env.hardware_concurrency
    (get_outdated_files env u w.disk manifest).length
  have hnocap : ∀ (t : Nat) (e : Error), s.threads[t]? ≠ some (Pc.capture e) := by
    intro t e ht
    have := joined_exited s hj t _ ht
    cases this
  have hdisk : w1.disk = s.world.disk := by rw [hw1]; rfl
  rw [get_outdated_files_eq_filter, List.filter_eq_nil_iff]
  intro g hg
  rw [hdisk]
  simp only [Bool.not_eq_true]
  by_cases hout : g ∈ get_outdated_files env u w.disk manifest
  · obtain ⟨i, hi, hget⟩ := List.getElem_of_mem hout
    have hgi : (get_outdated_files env u w.disk manifest)[i]? = some g := by
      rw [List.getElem?_eq_getElem hi, hget]
    have hdl := joined_all_downloaded _ s pinv hj (by omega) hok i hi
    exact valid_copy_not_outdated env u _ g (dinv.valid hok hnocap i hdl g hgi)
  · by_cases hrel : env.ci_build = true ∨ g.name ≠ UPDATE_HOST_BINARY
    · have hold : is_outdated_file env u w.disk g = false := by
        cases hc : is_outdated_file env u w.disk g with
        | false => rfl
        | true => exact absurd ((outdated_of_mem env u w.disk manifest g).mpr ⟨hg, hc⟩) hout
      have hun : lookup s.world.disk (get_drive_filename u g) =
          lookup w.disk (get_drive_filename u g) := by
        apply dinv.untouched
        intro f hf htar
        rw [outdated_of_mem] at hf
        have := target_injective env u manifest hnames htargets f g hf.1 hg
          (outdated_examined env u w.disk f hf.2) hrel htar
        rw [this] at hf
        rw [hf.2] at hold
        cases hold
      unfold is_outdated_file read_file at hold ⊢
      rw [hun]
      exact hold
    · simp only [not_or, Bool.not_eq_true, ne_eq, not_not] at hrel
      simp [is_outdated_file, hrel.1, hrel.2]

/-! ### Witnesses on the example data -/

theorem ex_disk_in_range : disk_in_range ex_disk := by
  intro path data h
  simp only [read_file, ex_disk, lookup] at h
  split_ifs at h
  all_goals simp at h
  subst h
  decide

theorem ex_manifest_in_range : ∀ f ∈ ex_manifest, size_in_range f := by
  intro f hf
  simp only [ex_manifest, List.mem_cons, List.mem_singleton, List.not_mem_nil, or_false] at hf
  rcases hf with rfl | rfl <;> · unfold size_in_range; decide

/-- The example manifest: `a.txt` is up to date, `b.txt` is missing. -/
theorem get_outdated_files_spec_witness :
    get_outdated_files ex_env ex_updater ex_disk ex_manifest = [ex_b] ∧
    (get_outdated_files ex_env ex_updater ex_disk ex_manifest).Sublist ex_manifest ∧
    ∀ f ∈ ex_manifest, f.name ≠ UPDATE_HOST_BINARY →
      (f ∈ get_outdated_files ex_env ex_updater ex_disk ex_manifest ↔
        (read_file ex_disk (get_drive_filename ex_updater f) = none ∨
          ∃ data, read_file ex_disk (get_drive_filename ex_updater f) = some data ∧
            ((data.length : Int) ≠ f.size ∨ ex_env.sha1 data ≠ f.hash))) :=
  ⟨by decide,
    get_outdated_files_spec ex_env ex_updater ex_disk ex_manifest ex_disk_in_range
      ex_manifest_in_range⟩

theorem ex_body_in_range : ∀ data,
    ex_env.http_get (get_update_folder ex_env ++ ex_b.name) = some data →
      data.length < 2 ^ 63 := by
  intro data h
  have hget : ex_env.http_get (get_update_folder ex_env ++ ex_b.name) = some "xyz" := by
    decide
  rw [hget] at h
  injection h with h
  subst h
  decide

/-- The download of `b.txt` in the example: the body is written to
`/root/data/b.txt`. -/
theorem update_file_spec_witness :
    update_file ex_env ex_updater ex_world ex_b =
      (none, { ex_world with disk := ("/root/data/b.txt", Node.file "xyz") :: ex_disk }) ∧
    ((update_file ex_env ex_updater ex_world ex_b).1 = none →
      ∃ data, ex_env.http_get (get_update_folder ex_env ++ ex_b.name) = some data ∧
        (data.length : Int) = ex_b.size ∧ ex_env.sha1 data = ex_b.hash ∧
        write_file ex_env ex_world.disk (get_drive_filename ex_updater ex_b) data =
          some (update_file ex_env ex_updater ex_world ex_b).2.disk) :=
  ⟨by decide,
    (update_file_spec ex_env ex_updater ex_world ex_b ex_body_in_range
      (by unfold size_in_range; decide)).2.2.1⟩

/-- The scenario of the two files `a.txt` and `b.txt`: the outdated set is
`[b.txt]`, and after the download `b.txt` has length 3 and the expected digest,
and no record is outdated.  In a build with `CI_BUILD` and with the host binary
in the manifest the outdated set is `[xlabs.exe, b.txt]`, and after the two
downloads no record is outdated. -/
theorem outdated_empty_after_update_witness :
    (get_outdated_files ex_env ex_updater ex_world.disk ex_manifest = [ex_b] ∧
    update_files ex_env ex_updater ex_world [ex_b] [0, 0, 0, 0, 0, 0, 0] =
      some (none,
        { disk := ("/root/data/b.txt", Node.file "xyz") :: ex_disk,
          log := [Event.update_files [ex_b], Event.begin_file ex_b, Event.end_file ex_b,
            Event.done_update],
          relaunches := 0 }) ∧
    read_file (("/root/data/b.txt", Node.file "xyz") :: ex_disk) "/root/data/b.txt" =
      some "xyz" ∧
    "xyz".length = 3 ∧ ex_sha1 "xyz" = ex_b.hash ∧
    get_outdated_files ex_env ex_updater
      (("/root/data/b.txt", Node.file "xyz") :: ex_disk) ex_manifest = []) ∧
    (get_outdated_files ex_env_ci ex_updater ex_world_exe.disk [ex_host, ex_a, ex_b] =
      [ex_host, ex_b] ∧
    update_files ex_env_ci ex_updater ex_world_exe [ex_host, ex_b]
        [0, 0, 0, 0, 0, 0, 0, 0, 0, 0, 0, 0, 1, 1] =
      some (none,
        { disk := ("/root/data/b.txt", Node.file "xyz") :: ("/bin/xlabs.exe", Node.file "new") ::
            ex_disk,
          log := [Event.update_files [ex_host, ex_b], Event.begin_file ex_host,
            Event.end_file ex_host, Event.begin_file ex_b, Event.end_file ex_b,
            Event.done_update],
          relaunches := 0 }) ∧
    get_outdated_files ex_env_ci ex_updater
      (("/root/data/b.txt", Node.file "xyz") :: ("/bin/xlabs.exe", Node.file "new") :: ex_disk)
      [ex_host, ex_a, ex_b] = []) :=
  ⟨⟨by decide, by decide, by decide, by decide, by decide,
    outdated_empty_after_update ex_env ex_updater ex_world
      { disk := ("/root/data/b.txt", Node.file "xyz") :: ex_disk,
        log := [Event.update_files [ex_b], Event.begin_file ex_b, Event.end_file ex_b,
          Event.done_update],
        relaunches := 0 }
      ex_manifest [0, 0, 0, 0, 0, 0, 0] (by decide) (by decide) (by decide)⟩,
    by decide, by decide,
    outdated_empty_after_update ex_env_ci ex_updater ex_world_exe
      { disk := ("/root/data/b.txt", Node.file "xyz") :: ("/bin/xlabs.exe", Node.file "new") ::
          ex_disk,
        log := [Event.update_files [ex_host, ex_b], Event.begin_file ex_host,
          Event.end_file ex_host, Event.begin_file ex_b, Event.end_file ex_b,
          Event.done_update],
        relaunches := 0 }
      [ex_host, ex_a, ex_b] [0, 0, 0, 0, 0, 0, 0, 0, 0, 0, 0, 0, 1, 1] (by decide) (by decide)
      (by decide)⟩

/-- The second failing thread of the example replaces the error in the slot. -/
theorem exception_slot_last_writer_witness :
    ∃ s s1,
      exec ex_env ex_updater [ex_a, ex_c] (pool_start ex_world 2)
        [0, 1, 0, 1, 0, 1, 0, 1, 0] = some s ∧
      step ex_env ex_updater [ex_a, ex_c] s 1 = some s1 ∧
      s.exception = some ex_error_a ∧ s1.exception = some ex_error_c ∧
      s1.exception = s1.captures.getLast?.map Prod.snd := by
  have h : ((exec ex_env ex_updater [ex_a, ex_c] (pool_start ex_world 2)
      [0, 1, 0, 1, 0, 1, 0, 1, 0]).bind
      (fun s => (step ex_env ex_updater [ex_a, ex_c] s 1).map
        (fun s1 => (s.exception, s1.exception)))) =
      some (some ex_error_a, some ex_error_c) := by
    decide
  cases he : exec ex_env ex_updater [ex_a, ex_c] (pool_start ex_world 2)
      [0, 1, 0, 1, 0, 1, 0, 1, 0] with
  | none => simp [he] at h
  | some s =>
    simp only [he, Option.some_bind] at h
    cases hs : step ex_env ex_updater [ex_a, ex_c] s 1 with
    | none => simp [hs] at h
    | some s1 =>
      simp only [hs, Option.map_some', Option.some.injEq, Prod.mk.injEq] at h
      refine ⟨s, s1, rfl, hs, ?_, ?_,
        (exception_slot_last_writer ex_env ex_updater ex_world [ex_a, ex_c]
          [0, 1, 0, 1, 0, 1, 0, 1, 0] 1 s s1 2 he hs).1⟩
      · rw [h.1]
      · rw [h.2]

/-- Two threads download two files: each index is claimed and downloaded once. -/
theorem update_files_each_index_once_witness :
    ∃ s, update_files_pool ex_env ex_updater ex_world [ex_b, ex_d]
        [0, 1, 0, 1, 0, 1, 0, 1, 0, 1, 0, 1, 0, 1] = some s ∧
      s.failures = [] ∧ s.claims = [(0, 0), (1, 1), (0, 2), (1, 3)] ∧
      (∀ i, i < [ex_b, ex_d].length → s.downloads.count i = 1) ∧
      ∀ pc ∈ s.threads, pc = Pc.exited := by
  have h : (update_files_pool ex_env ex_updater ex_world [ex_b, ex_d]
      [0, 1, 0, 1, 0, 1, 0, 1, 0, 1, 0, 1, 0, 1]).map
        (fun s => (s.failures, s.claims)) =
      some ([], [(0, 0), (1, 1), (0, 2), (1, 3)]) := by
    decide
  cases hp : update_files_pool ex_env ex_updater ex_world [ex_b, ex_d]
      [0, 1, 0, 1, 0, 1, 0, 1, 0, 1, 0, 1, 0, 1] with
  | none => simp [hp] at h
  | some s =>
    simp only [hp, Option.map_some', Option.some.injEq, Prod.mk.injEq] at h
    have hthm := update_files_each_index_once ex_env ex_updater ex_world [ex_b, ex_d]
      [0, 1, 0, 1, 0, 1, 0, 1, 0, 1, 0, 1, 0, 1] s hp
    exact ⟨s, rfl, h.1, h.2, (hthm.2.2.2 h.1).2.1, hthm.2.1.2⟩

/-- Four hardware threads and seven files give a pool of two. -/
theorem get_optimal_concurrent_download_count_spec_witness :
    (4 : Nat) < 2 ^ 32 ∧ get_optimal_concurrent_download_count 4 7 = 2 ∧
    get_optimal_concurrent_download_count 4 7 = max 1 (min (2 * 4 / 3) 7) :=
  ⟨by decide, by decide, (get_optimal_concurrent_download_count_spec 4 7 (by decide)).1⟩

/-! ### `update_files` on a single file -/

theorem thread_count_one (h : Nat) : get_optimal_concurrent_download_count h 1 = 1 := by
  simp only [get_optimal_concurrent_download_count]
  omega

theorem step_single (env : Env) (u : file_updater) (files : List file_info) (s s1 : Pool)
    (t : Nat) (hlen : s.threads.length = 1) (h : step env u files s t = some s1) :
    t = 0 ∧ s1.threads.length = 1 := by
  constructor
  · by_contra ht
    have : s.threads[t]? = none := List.getElem?_eq_none (by omega)
    simp [step, this] at h
  · rcases step_cases env u files s s1 t h with
      ⟨_, _, rfl⟩ | ⟨_, _, rfl⟩ | ⟨_, _, rfl⟩ | ⟨_, _, _, rfl⟩ | ⟨_, _, _, rfl⟩ |
      ⟨_, _, _, _, _, rfl⟩ | ⟨_, _, _, _, _, _, rfl⟩ | ⟨_, _, _, rfl⟩ | ⟨_, _, rfl⟩ <;>
    simp [Pool.goto, hlen]

/-- With one thread the schedule is a list of zeros. -/
theorem exec_single (env : Env) (u : file_updater) (files : List file_info) (s s1 : Pool)
    (schedule : List Nat) (hlen : s.threads.length = 1)
    (h : exec env u files s schedule = some s1) :
    schedule = List.replicate schedule.length 0 := by
  induction schedule generalizing s with
  | nil => rfl
  | cons t rest ih =>
    simp only [exec] at h
    cases hs : step env u files s t with
    | none => simp [hs] at h
    | some s2 =>
      simp only [hs] at h
      obtain ⟨ht, hlen2⟩ := step_single env u files s s2 t hlen hs
      rw [List.length_cons, List.replicate_succ, ← ih s2 hlen2 h, ht]

theorem exec_success_trace (env : Env) (u : file_updater) (w w1 : World) (f : file_info)
    (hu : update_file env u (notify w (Event.begin_file f)) f = (none, w1)) :
    exec env u [f] (pool_start w 1) (List.replicate 7 0) =
      some { world := notify w1 (Event.end_file f), current_index := 2, exception := none,
             threads := [Pc.exited], claims := [(0, 0), (0, 1)], downloads := [0],
             failures := [], captures := [] } := by
  simp [exec, step, pool_start, Pool.goto, hu, List.replicate]

theorem exec_failure_trace (env : Env) (u : file_updater) (w w1 : World) (f : file_info)
    (e : Error)
    (hu : update_file env u (notify w (Event.begin_file f)) f = (some e, w1)) :
    exec env u [f] (pool_start w 1) (List.replicate 5 0) =
      some { world := w1, current_index := 1, exception := some e,
             threads := [Pc.exited], claims := [(0, 0)], downloads := [0],
             failures := [0], captures := [(0, e)] } := by
  simp [exec, step, pool_start, Pool.goto, hu, List.replicate]
theorem exec_exited_single (env : Env) (u : file_updater) (files : List file_info) (s : Pool)
    (t : Nat) (rest : List Nat) (h : s.threads = [Pc.exited]) :
    exec env u files s (t :: rest) = none := by
  have : step env u files s t = none := by
    unfold step
    rw [h]
    cases t with
    | zero => rfl
    | succ n => rfl
  simp only [exec, this]

/-- The joined pool of one thread and one file whose download succeeds. -/
theorem pool_single_success (env : Env) (u : file_updater) (w w1 : World) (f : file_info)
    (hu : update_file env u (notify w (Event.begin_file f)) f = (none, w1))
    (schedule : List Nat) (s : Pool)
    (h : exec env u [f] (pool_start w 1) schedule = some s) (hj : joined s = true) :
    schedule = List.replicate 7 0 ∧ s.world = notify w1 (Event.end_file f) ∧
      s.exception = none := by
  have hsched := exec_single env u [f] (pool_start w 1) s schedule (by simp [pool_start]) h
  generalize schedule.length = n at hsched
  subst hsched
  rcases Nat.lt_or_ge n 8 with hn | hn
  · interval_cases n
    · simp [exec, step, pool_start, Pool.goto, hu, List.replicate] at h
      subst h
      simp [joined] at hj
    · simp [exec, step, pool_start, Pool.goto, hu, List.replicate] at h
      subst h
      simp [joined] at hj
    · simp [exec, step, pool_start, Pool.goto, hu, List.replicate] at h
      subst h
      simp [joined] at hj
    · simp [exec, step, pool_start, Pool.goto, hu, List.replicate] at h
      subst h
      simp [joined] at hj
    · simp [exec, step, pool_start, Pool.goto, hu, List.replicate] at h
      subst h
      simp [joined] at hj
    · simp [exec, step, pool_start, Pool.goto, hu, List.replicate] at h
      subst h
      simp [joined] at hj
    · simp [exec, step, pool_start, Pool.goto, hu, List.replicate] at h
      subst h
      simp [joined] at hj
    · rw [exec_success_trace env u w w1 f hu] at h
      injection h with h
      subst h
      exact ⟨rfl, rfl, rfl⟩
  · exfalso
    have hsplit : List.replicate n 0 = List.replicate 7 0 ++ 0 :: List.replicate (n - 8) 0 := by
      rw [← List.replicate_succ, ← List.replicate_add]
      congr 1
      omega
    rw [hsplit, exec_append, exec_success_trace env u w w1 f hu] at h
    simp only [Option.some_bind] at h
    rw [exec_exited_single env u [f] _ 0 _ rfl] at h
    cases h

/-- The joined pool of one thread and one file whose download fails. -/
theorem pool_single_failure (env : Env) (u : file_updater) (w w1 : World) (f : file_info)
    (e : Error)
    (hu : update_file env u (notify w (Event.begin_file f)) f = (some e, w1))
    (schedule : List Nat) (s : Pool)
    (h : exec env u [f] (pool_start w 1) schedule = some s) (hj : joined s = true) :
    schedule = List.replicate 5 0 ∧ s.world = w1 ∧ s.exception = some e := by
  have hsched := exec_single env u [f] (pool_start w 1) s schedule (by simp [pool_start]) h
  generalize schedule.length = n at hsched
  subst hsched
  rcases Nat.lt_or_ge n 6 with hn | hn
  · interval_cases n
    · simp [exec, step, pool_start, Pool.goto, hu, List.replicate] at h
      subst h
      simp [joined] at hj
    · simp [exec, step, pool_start, Pool.goto, hu, List.replicate] at h
      subst h
      simp [joined] at hj
    · simp [exec, step, pool_start, Pool.goto, hu, List.replicate] at h
      subst h
      simp [joined] at hj
    · simp [exec, step, pool_start, Pool.goto, hu, List.replicate] at h
      subst h
      simp [joined] at hj
    · simp [exec, step, pool_start, Pool.goto, hu, List.replicate] at h
      subst h
      simp [joined] at hj
    · rw [exec_failure_trace env u w w1 f e hu] at h
      injection h with h
      subst h
      exact ⟨rfl, rfl, rfl⟩
  · exfalso
    have hsplit : List.replicate n 0 = List.replicate 5 0 ++ 0 :: List.replicate (n - 6) 0 := by
      rw [← List.replicate_succ, ← List.replicate_add]
      congr 1
      omega
    rw [hsplit, exec_append, exec_failure_trace env u w w1 f e hu] at h
    simp only [Option.some_bind] at h
    rw [exec_exited_single env u [f] _ 0 _ rfl] at h
    cases h

/-- The call of `update_files` on one file whose download succeeds: under the only complete
schedule it returns normally, and no schedule gives anything else. -/
theorem update_files_single_success (env : Env) (u : file_updater) (w w1 : World)
    (f : file_info)
    (hu : update_file env u
      (notify (notify w (Event.update_files [f])) (Event.begin_file f)) f = (none, w1)) :
    update_files env u w [f] (List.replicate 7 0) =
      some (none, notify (notify w1 (Event.end_file f)) Event.done_update) ∧
    ∀ schedule r, update_files env u w [f] schedule = some r →
      r = (none, notify (notify w1 (Event.end_file f)) Event.done_update) := by
  constructor
  · simp only [update_files, update_files_pool, List.length_singleton, thread_count_one,
      exec_success_trace env u _ w1 f hu, joined, List.all_cons, List.all_nil, decide_True,
      Bool.and_self, if_true]
  · intro schedule r hr
    unfold update_files at hr
    cases hp : update_files_pool env u w [f] schedule with
    | none => simp [hp] at hr
    | some s =>
      obtain ⟨hexec, hj⟩ := update_files_pool_some env u w [f] schedule s hp
      simp only [List.length_singleton, thread_count_one] at hexec
      obtain ⟨_, hw, hx⟩ := pool_single_success env u _ w1 f hu schedule s hexec hj
      simp only [hp, hx, Option.some.injEq] at hr
      rw [← hr, hw]

/-- The call of `update_files` on one file whose download fails: under the only complete
schedule it rethrows the error of the download, and no schedule gives anything
else. -/
theorem update_files_single_failure (env : Env) (u : file_updater) (w w1 : World)
    (f : file_info) (e : Error)
    (hu : update_file env u
      (notify (notify w (Event.update_files [f])) (Event.begin_file f)) f = (some e, w1)) :
    update_files env u w [f] (List.replicate 5 0) = some (some e, w1) ∧
    ∀ schedule r, update_files env u w [f] schedule = some r → r = (some e, w1) := by
  constructor
  · simp only [update_files, update_files_pool, List.length_singleton, thread_count_one,
      exec_failure_trace env u _ w1 f e hu, joined, List.all_cons, List.all_nil, decide_True,
      Bool.and_self, if_true]
  · intro schedule r hr
    unfold update_files at hr
    cases hp : update_files_pool env u w [f] schedule with
    | none => simp [hp] at hr
    | some s =>
      obtain ⟨hexec, hj⟩ := update_files_pool_some env u w [f] schedule s hp
      simp only [List.length_singleton, thread_count_one] at hexec
      obtain ⟨_, hw, hx⟩ := pool_single_failure env u _ w1 f e hu schedule s hexec hj
      simp only [hp, hx, Option.some.injEq] at hr
      rw [← hr, hw]

/-! ### Replacing the host binary -/

theorem find_host_file_info_some (files : List file_info) (host : file_info)
    (h : find_host_file_info files = some host) :
    host ∈ files ∧ host.name = UPDATE_HOST_BINARY := by
  induction files with
  | nil => simp [find_host_file_info] at h
  | cons f rest ih =>
    unfold find_host_file_info at h
    by_cases hf : f.name = UPDATE_HOST_BINARY
    · simp only [hf, if_true, Option.some.injEq] at h
      subst h
      exact ⟨List.mem_cons_self _ _, hf⟩
    · simp only [hf, if_false] at h
      exact ⟨List.mem_cons_of_mem _ (ih h).1, (ih h).2⟩

theorem find_host_file_info_none (files : List file_info)
    (h : find_host_file_info files = none) : ∀ f ∈ files, f.name ≠ UPDATE_HOST_BINARY := by
  induction files with
  | nil => intro f hf; cases hf
  | cons g rest ih =>
    unfold find_host_file_info at h
    by_cases hg : g.name = UPDATE_HOST_BINARY
    · simp [hg] at h
    · simp only [hg, if_false] at h
      intro f hf
      rcases List.mem_cons.mp hf with rfl | hf
      · exact hg
      · exact ih h f hf

theorem dead_ne_process (u : file_updater) : u.dead_process_file_ ≠ u.process_file_ := by
  intro h
  have h1 := congrArg String.length h
  simp [file_updater.dead_process_file_, String.length_append] at h1
  have : (".old" : String).length = 4 := by decide
  omega

theorem lookup_move_target (disk : Disk) (src target : String) (n : Node)
    (h : lookup disk src = some n) : lookup (move_file disk src target) target = some n := by
  simp [move_file, h, lookup]

theorem lookup_move_src (disk : Disk) (src target : String) (n : Node)
    (h : lookup disk src = some n) (hne : src ≠ target) :
    lookup (move_file disk src target) src = none := by
  have h1 : ¬ target = src := fun h => hne h.symm
  simp only [move_file, h, lookup, h1, if_false]
  rw [lookup_erase_ne _ _ _ hne]
  exact lookup_erase_self disk src

theorem lookup_move_other (disk : Disk) (src target q : String)
    (h1 : q ≠ src) (h2 : q ≠ target) :
    lookup (move_file disk src target) q = lookup disk q := by
  unfold move_file
  cases lookup disk src with
  | none => rfl
  | some n =>
    have : ¬ target = q := fun h => h2 h.symm
    simp only [lookup, this, if_false]
    rw [lookup_erase_ne _ _ _ h2, lookup_erase_ne _ _ _ h1]

/-- Whether `update_file` fails, and with which error, depends on the disk only. -/
theorem update_file_outcome (env : Env) (u : file_updater) (w w2 : World) (file : file_info)
    (h : w.disk = w2.disk) :
    (update_file env u w file).1 = (update_file env u w2 file).1 := by
  rw [update_file_eq, update_file_eq, h]
  cases hc : checked_body env file with
  | none => rfl
  | some data =>
    simp only
    cases hw : write_file env w2.disk (get_drive_filename u file) data with
    | none => rfl
    | some disk => rfl
theorem update_host_binary_found (env : Env) (u : file_updater) (w : World)
    (outdated_files : List file_info) (host : file_info) (schedule : List Nat)
    (hhost : find_host_file_info outdated_files = some host) :
    update_host_binary env u w outdated_files schedule =
      match update_files env u (move_current_process_file u w) [host] schedule with
      | none => none
      | some (some e, w1) => some (some e, restore_current_process_file u w1)
      | some (none, w1) => some (some Error.update_cancelled, relaunch_self w1) := by
  simp only [update_host_binary, hhost]

/-- C4: when the running executable exists at the process path, the host record
is among the outdated files and the download of the replacement fails,
`update_host_binary` raises the error of the download; afterwards the process
path holds the original bytes again, the staged ".old" file is gone, every
other file is as before, and no relaunch was requested.  The call does return:
the schedule of five steps of its single thread leads to this result. -/
theorem update_host_binary_rollback (env : Env) (u : file_updater) (w : World)
    (outdated_files : List file_info) (host : file_info) (e : Error) (original : String)
    (hhost : find_host_file_info outdated_files = some host)
    (hexe : read_file w.disk u.process_file_ = some original)
    (hfail : (update_file env u (move_current_process_file u w) host).1 = some e) :
    (∃ r, update_host_binary env u w outdated_files (List.replicate 5 0) = some r) ∧
    ∀ schedule r, update_host_binary env u w outdated_files schedule = some r →
      r.1 = some e ∧
      read_file r.2.disk u.process_file_ = some original ∧
      lookup r.2.disk u.dead_process_file_ = none ∧
      r.2.relaunches = w.relaunches ∧
      ∀ q, q ≠ u.process_file_ → q ≠ u.dead_process_file_ →
        lookup r.2.disk q = lookup w.disk q := by
  have hlook : lookup w.disk u.process_file_ = some (Node.file original) := by
    unfold read_file at hexe
    cases hl : lookup w.disk u.process_file_ with
    | none => simp [hl] at hexe
    | some n =>
      cases n with
      | file data =>
        simp only [hl, Option.some.injEq] at hexe
        rw [hexe]
      | directory => simp [hl] at hexe
  have hne := dead_ne_process u
  have hout := update_file_outcome env u
    (notify (notify (move_current_process_file u w) (Event.update_files [host]))
      (Event.begin_file host))
    (move_current_process_file u w) host rfl
  rw [hfail] at hout
  obtain ⟨wx, hu⟩ : ∃ wx, update_file env u
      (notify (notify (move_current_process_file u w) (Event.update_files [host]))
        (Event.begin_file host)) host = (some e, wx) := by
    exact ⟨_, Prod.ext hout rfl⟩
  have hwx := update_file_some env u _ wx host e hu
  obtain ⟨hrun, hall⟩ := update_files_single_failure env u (move_current_process_file u w)
    wx host e hu
  have hfinal : ∀ schedule r, update_host_binary env u w outdated_files schedule = some r →
      r = (some e, restore_current_process_file u wx) := by
    intro schedule r hr
    rw [update_host_binary_found env u w outdated_files host schedule hhost] at hr
    cases hf : update_files env u (move_current_process_file u w) [host] schedule with
    | none => simp [hf] at hr
    | some r1 =>
      have := hall schedule r1 hf
      subst this
      simp only [hf, Option.some.injEq] at hr
      exact hr.symm
  constructor
  · refine ⟨(some e, restore_current_process_file u wx), ?_⟩
    rw [update_host_binary_found env u w outdated_files host _ hhost, hrun]
  · intro schedule r hr
    rw [hfinal schedule r hr]
    have hdisk : (restore_current_process_file u wx).disk =
        move_file (move_file w.disk u.process_file_ u.dead_process_file_)
          u.dead_process_file_ u.process_file_ := by
      rw [hwx]
      rfl
    have hstaged : lookup (move_file w.disk u.process_file_ u.dead_process_file_)
        u.dead_process_file_ = some (Node.file original) :=
      lookup_move_target _ _ _ _ hlook
    refine ⟨rfl, ?_, ?_, ?_, ?_⟩
    · show read_file (restore_current_process_file u wx).disk _ = _
      rw [hdisk]
      unfold read_file
      rw [lookup_move_target _ _ _ _ hstaged]
    · show lookup (restore_current_process_file u wx).disk _ = _
      rw [hdisk]
      exact lookup_move_src _ _ _ _ hstaged hne
    · show (restore_current_process_file u wx).relaunches = _
      rw [hwx]
      rfl
    · intro q h1 h2
      show lookup (restore_current_process_file u wx).disk _ = _
      rw [hdisk, lookup_move_other _ _ _ _ h2 h1, lookup_move_other _ _ _ _ h1 h2]

/-- C5: when the host record is among the outdated files and the download of the
replacement succeeds, `update_host_binary` moves the old executable to the
".old" path, writes the new content to the process path, requests one relaunch
and leaves by throwing `update_cancelled`; `run` ends with that same result,
whatever the schedule of its own `update_files` call: it downloads no further
file and the staged file is not moved back. -/
theorem update_host_binary_relaunch (env : Env) (u : file_updater) (w : World)
    (outdated_files : List file_info) (host : file_info)
    (hhost : find_host_file_info outdated_files = some host)
    (hok : (update_file env u (move_current_process_file u w) host).1 = none) :
    (∃ r, update_host_binary env u w outdated_files (List.replicate 7 0) = some r) ∧
    (∀ schedule r, update_host_binary env u w outdated_files schedule = some r →
      r.1 = some Error.update_cancelled ∧
      r.2.relaunches = w.relaunches + 1 ∧
      (∃ data, checked_body env host = some data ∧
        read_file r.2.disk u.process_file_ = some data) ∧
      (∀ n, lookup w.disk u.process_file_ = some n →
        lookup r.2.disk u.dead_process_file_ = some n) ∧
      r.2.log = w.log ++ [Event.update_files [host], Event.begin_file host,
        Event.end_file host, Event.done_update]) ∧
    (∀ (parse : String → Json) (w0 : World) (files : List file_info)
        (host_schedule schedule : List Nat),
      get_file_infos env parse = some files →
      (if files.isEmpty then w0 else cleanup_directories env u w0 files) = w →
      get_outdated_files env u w.disk files = outdated_files →
      run env parse u w0 host_schedule schedule =
        update_host_binary env u w outdated_files host_schedule) := by
  obtain ⟨hmem, hname⟩ := find_host_file_info_some outdated_files host hhost
  have hne := dead_ne_process u
  have htarget : get_drive_filename u host = u.process_file_ := by
    simp [get_drive_filename, hname]
  have hout := update_file_outcome env u
    (notify (notify (move_current_process_file u w) (Event.update_files [host]))
      (Event.begin_file host))
    (move_current_process_file u w) host rfl
  rw [hok] at hout
  obtain ⟨wx, hu⟩ : ∃ wx, update_file env u
      (notify (notify (move_current_process_file u w) (Event.update_files [host]))
        (Event.begin_file host)) host = (none, wx) := by
    exact ⟨_, Prod.ext hout rfl⟩
  obtain ⟨data, disk, hcb, hw, hwx⟩ := update_file_none env u _ wx host hu
  obtain ⟨hrun, hall⟩ := update_files_single_success env u (move_current_process_file u w)
    wx host hu
  have hfinal : ∀ schedule r, update_host_binary env u w outdated_files schedule = some r →
      r = (some Error.update_cancelled,
        relaunch_self (notify (notify wx (Event.end_file host)) Event.done_update)) := by
    intro schedule r hr
    rw [update_host_binary_found env u w outdated_files host schedule hhost] at hr
    cases hf : update_files env u (move_current_process_file u w) [host] schedule with
    | none => simp [hf] at hr
    | some r1 =>
      have := hall schedule r1 hf
      subst this
      simp only [hf, Option.some.injEq] at hr
      exact hr.symm
  refine ⟨?_, ?_, ?_⟩
  · refine ⟨(some Error.update_cancelled,
      relaunch_self (notify (notify wx (Event.end_file host)) Event.done_update)), ?_⟩
    rw [update_host_binary_found env u w outdated_files host _ hhost, hrun]
  · intro schedule r hr
    rw [hfinal schedule r hr]
    have hdisk : (relaunch_self (notify (notify wx (Event.end_file host))
        Event.done_update)).disk = disk := by
      rw [hwx]
      rfl
    rw [htarget] at hw
    refine ⟨rfl, ?_, ⟨data, hcb, ?_⟩, ?_, ?_⟩
    · show (relaunch_self (notify (notify wx (Event.end_file host))
        Event.done_update)).relaunches = _
      rw [hwx]
      rfl
    · show read_file (relaunch_self (notify (notify wx (Event.end_file host))
        Event.done_update)).disk _ = _
      rw [hdisk]
      exact read_file_write env _ _ _ _ hw
    · intro n hn
      show lookup (relaunch_self (notify (notify wx (Event.end_file host))
        Event.done_update)).disk _ = _
      rw [hdisk, write_file_lookup_other env _ _ _ _ data hw hne]
      exact lookup_move_target _ _ _ _ hn
    · show (relaunch_self (notify (notify wx (Event.end_file host))
        Event.done_update)).log = _
      rw [hwx]
      simp [relaunch_self, notify, move_current_process_file]
  · intro parse w0 files host_schedule schedule hfiles hw0 houtd
    have hnonempty : outdated_files.isEmpty = false := by
      cases outdated_files with
      | nil => cases hmem
      | cons a b => rfl
    simp only [run, hfiles, hw0, houtd, hnonempty, Bool.false_eq_true, if_false]
    cases hb : update_host_binary env u w outdated_files host_schedule with
    | none => rfl
    | some r =>
      have := hfinal host_schedule r hb
      subst this
      rfl

/-- A host record with a wrong size: the download fails and the executable is
back at its path. -/
theorem update_host_binary_rollback_witness :
    read_file ex_world_exe.disk ex_updater.process_file_ = some "old" ∧
    (update_host_binary ex_env ex_updater ex_world_exe [ex_b, ex_host_bad]
        [0, 0, 0, 0, 0]).map
      (fun r => (r.1, read_file r.2.disk "/bin/xlabs.exe",
        lookup r.2.disk "/bin/xlabs.exe.old", r.2.relaunches)) =
      some (some (Error.runtime_error
        "Failed to download: https://master.xlabs.dev/data/xlabs.exe"), some "old", none, 0) ∧
    ∀ schedule r,
      update_host_binary ex_env ex_updater ex_world_exe [ex_b, ex_host_bad] schedule = some r →
      r.1 = some (Error.runtime_error
        "Failed to download: https://master.xlabs.dev/data/xlabs.exe") ∧
      read_file r.2.disk ex_updater.process_file_ = some "old" ∧
      lookup r.2.disk ex_updater.dead_process_file_ = none ∧
      r.2.relaunches = ex_world_exe.relaunches ∧
      ∀ q, q ≠ ex_updater.process_file_ → q ≠ ex_updater.dead_process_file_ →
        lookup r.2.disk q = lookup ex_world_exe.disk q :=
  ⟨by decide, by decide,
    (update_host_binary_rollback ex_env ex_updater ex_world_exe [ex_b, ex_host_bad]
      ex_host_bad _ "old" (by decide) (by decide) (by decide)).2⟩

/-- A run in a build with `CI_BUILD` whose host binary is outdated: it ends with
the relaunch and does not download `b.txt`. -/
theorem update_host_binary_relaunch_witness :
    get_file_infos ex_env_ci ex_parse = some [ex_host, ex_a, ex_b] ∧
    get_outdated_files ex_env_ci ex_updater
      (cleanup_directories ex_env_ci ex_updater ex_world_exe [ex_host, ex_a, ex_b]).disk
      [ex_host, ex_a, ex_b] = [ex_host, ex_b] ∧
    run ex_env_ci ex_parse ex_updater ex_world_exe [0, 0, 0, 0, 0, 0, 0] [] =
      some (some Error.update_cancelled,
        { disk := ("/bin/xlabs.exe", Node.file "new") ::
            ("/bin/xlabs.exe.old", Node.file "old") :: ex_disk,
          log := [Event.update_files [ex_host], Event.begin_file ex_host,
            Event.end_file ex_host, Event.done_update],
          relaunches := 1 }) ∧
    ∀ host_schedule schedule,
      run ex_env_ci ex_parse ex_updater ex_world_exe host_schedule schedule =
        update_host_binary ex_env_ci ex_updater
          (cleanup_directories ex_env_ci ex_updater ex_world_exe [ex_host, ex_a, ex_b])
          [ex_host, ex_b] host_schedule :=
  ⟨by decide, by decide, by decide, fun host_schedule schedule =>
    (update_host_binary_relaunch ex_env_ci ex_updater
      (cleanup_directories ex_env_ci ex_updater ex_world_exe [ex_host, ex_a, ex_b])
      [ex_host, ex_b] ex_host (by decide) (by decide)).2.2 ex_parse ex_world_exe
      [ex_host, ex_a, ex_b] host_schedule schedule (by decide) (by decide) (by decide)⟩

/-! ### Paths -/

theorem split_ne_nil (cs : List Char) : split_at_separator cs ≠ [] := by
  cases cs with
  | nil => simp [split_at_separator]
  | cons c rest =>
    unfold split_at_separator
    by_cases hc : c = '/'
    · simp [hc]
    · simp only [hc, if_false]
      cases split_at_separator rest <;> simp

theorem split_cons_separator (cs : List Char) :
    split_at_separator ('/' :: cs) = [] :: split_at_separator cs := by
  simp [split_at_separator]

theorem split_cons_other (c : Char) (cs piece : List Char) (more : List (List Char))
    (hc : c ≠ '/') (h : split_at_separator cs = piece :: more) :
    split_at_separator (c :: cs) = (c :: piece) :: more := by
  simp [split_at_separator, hc, h]

theorem split_append_separator (a b : List Char) :
    split_at_separator (a ++ '/' :: b) = split_at_separator a ++ split_at_separator b := by
  induction a with
  | nil =>
    rw [List.nil_append, split_cons_separator]
    rfl
  | cons c rest ih =>
    rw [List.cons_append]
    by_cases hc : c = '/'
    · subst hc
      rw [split_cons_separator, split_cons_separator, ih]
      rfl
    · cases hs : split_at_separator rest with
      | nil => exact absurd hs (split_ne_nil rest)
      | cons piece more =>
        rw [split_cons_other c rest piece more hc hs,
          split_cons_other c (rest ++ '/' :: b) piece (more ++ split_at_separator b) hc
            (by rw [ih, hs]; rfl)]
        rfl

theorem pieces_append_separator (p q : String) :
    pieces (p ++ "/" ++ q) = pieces p ++ pieces q := by
  have : (p ++ "/" ++ q).data = p.data ++ '/' :: q.data := by
    simp [String.data_append]
  simp only [pieces, this, split_append_separator, List.map_append]

theorem pieces_trailing_separator (p : String) (h : ends_with_separator p = true) :
    ∃ l : List Char, p.data = l ++ ['/'] ∧
      pieces p = (split_at_separator l).map String.mk ++ [""] := by
  simp only [ends_with_separator, decide_eq_true_eq] at h
  have hne : p.data ≠ [] := by
    intro hn
    rw [hn] at h
    cases h
  have hlast : p.data.getLast hne = '/' := by
    rw [List.getLast?_eq_getLast _ hne] at h
    injection h
  refine ⟨p.data.dropLast, ?_, ?_⟩
  · rw [← hlast]
    exact (List.dropLast_append_getLast hne).symm
  · have hd : p.data = p.data.dropLast ++ '/' :: [] := by
      rw [← hlast]
      exact (List.dropLast_append_getLast hne).symm
    unfold pieces
    rw [hd, split_append_separator]
    simp [split_at_separator]

theorem push_empty (stack : List String) : push_element stack "" = stack := by
  simp [push_element]

/-- The elements of `p / q` pushed on a stack are the elements of `p` and then
those of `q`, when `q` does not start at the root. -/
theorem foldl_path_append (stack : List String) (p q : String)
    (hq : starts_with_separator q = false) :
    (pieces (path_append p q)).foldl push_element stack =
      (pieces q).foldl push_element ((pieces p).foldl push_element stack) := by
  unfold path_append
  simp only [hq, Bool.false_eq_true, if_false]
  by_cases hp : p = ""
  · subst hp
    simp only [true_or, if_true]
    have : ("" : String) ++ q = q := by
      apply String.ext
      simp [String.data_append]
    rw [this]
    have hpieces : pieces "" = [""] := by decide
    rw [hpieces]
    simp only [List.foldl_cons, List.foldl_nil, push_empty]
  · by_cases he : ends_with_separator p = true
    · simp only [he, or_true, if_true]
      obtain ⟨l, hl, hpieces⟩ := pieces_trailing_separator p he
      have hdata : (p ++ q).data = l ++ '/' :: q.data := by
        simp [String.data_append, hl]
      have h1 : pieces (p ++ q) = (split_at_separator l).map String.mk ++ pieces q := by
        simp only [pieces, hdata, split_append_separator, List.map_append]
      rw [h1, hpieces, List.foldl_append, List.foldl_append]
      simp only [List.foldl_cons, List.foldl_nil, push_empty]
    · simp only [hp, he, or_self, if_false, Bool.false_eq_true]
      rw [pieces_append_separator, List.foldl_append]

theorem starts_path_append (p q : String) (hq : starts_with_separator q = false) :
    starts_with_separator (path_append p q) = starts_with_separator p := by
  unfold path_append
  simp only [hq, Bool.false_eq_true, if_false]
  by_cases hp : p = ""
  · subst hp
    simp only [true_or, if_true]
    have : ("" : String) ++ q = q := by
      apply String.ext
      simp [String.data_append]
    rw [this, hq]
    rfl
  · have hdata : p.data ≠ [] := by
      intro h
      apply hp
      apply String.ext
      rw [h]
    obtain ⟨c, cs, hc⟩ := List.exists_cons_of_ne_nil hdata
    split <;> simp [starts_with_separator, String.data_append, hc]

/-- The normal form of a path: its elements pushed on the empty stack when it
starts at the root, and on the normal form of the current directory when not. -/
theorem canonical_eq_foldl (env : Env) (path : String) :
    canonical env path =
      (pieces path).foldl push_element
        (if starts_with_separator path = true then [] else canonical env "") := by
  have hcwd : canonical env "" = (pieces env.current_path).foldl push_element [] := by
    unfold canonical absolute
    rw [foldl_path_append [] env.current_path "" (by decide)]
    have hpieces : pieces "" = [""] := by decide
    rw [hpieces]
    simp only [List.foldl_cons, List.foldl_nil, push_empty]
  by_cases hs : starts_with_separator path = true
  · simp only [hs, if_true]
    unfold canonical absolute path_append
    simp only [hs, if_true]
  · simp only [hs, if_false, Bool.false_eq_true]
    rw [hcwd]
    unfold canonical absolute
    exact foldl_path_append [] env.current_path path (by simpa using hs)

/-- The normal form of `p / q` is the normal form of `p` followed by the
elements of `q`, when `q` does not start at the root. -/
theorem canonical_path_append (env : Env) (p q : String)
    (hq : starts_with_separator q = false) :
    canonical env (path_append p q) = (pieces q).foldl push_element (canonical env p) := by
  rw [canonical_eq_foldl env (path_append p q), canonical_eq_foldl env p,
    starts_path_append p q hq]
  exact foldl_path_append _ p q hq

theorem canonical_append_name (env : Env) (p name : String)
    (hname : name = "user" ∨ name = "data") :
    canonical env (path_append p name) = canonical env p ++ [name] := by
  rcases hname with rfl | rfl
  · rw [canonical_path_append env p "user" (by decide)]
    have : pieces "user" = ["user"] := by decide
    rw [this]
    simp only [List.foldl_cons, List.foldl_nil, push_element]
    have h1 : ¬ (("user" : String) = "" ∨ ("user" : String) = ".") := by decide
    have h2 : ¬ (("user" : String) = "..") := by decide
    simp only [h1, h2, if_false]
  · rw [canonical_path_append env p "data" (by decide)]
    have : pieces "data" = ["data"] := by decide
    rw [this]
    simp only [List.foldl_cons, List.foldl_nil, push_element]
    have h1 : ¬ (("data" : String) = "" ∨ ("data" : String) = ".") := by decide
    have h2 : ¬ (("data" : String) = "..") := by decide
    simp only [h1, h2, if_false]

/-- An element that stays in a normal form: not empty, not `.` and not `..`. -/
theorem foldl_push_names (l stack : List String)
    (h : ∀ e ∈ stack, e ≠ "" ∧ e ≠ "." ∧ e ≠ "..") :
    ∀ e ∈ l.foldl push_element stack, e ≠ "" ∧ e ≠ "." ∧ e ≠ ".." := by
  induction l generalizing stack with
  | nil => exact h
  | cons x rest ih =>
    simp only [List.foldl_cons]
    apply ih
    unfold push_element
    by_cases h1 : x = "" ∨ x = "."
    · simp only [h1, if_true]
      exact h
    · by_cases h2 : x = ".."
      · simp only [h1, h2, if_false, if_true]
        intro e he
        exact h e (List.mem_of_mem_dropLast he)
      · simp only [h1, h2, if_false]
        intro e he
        rcases List.mem_append.mp he with he | he
        · exact h e he
        · simp only [List.mem_singleton] at he
          subst he
          simp only [not_or] at h1
          exact ⟨h1.1, h1.2, h2⟩

theorem canonical_names (env : Env) (path : String) :
    ∀ e ∈ canonical env path, e ≠ "" ∧ e ≠ "." ∧ e ≠ ".." :=
  foldl_push_names (pieces (absolute env path)) [] (by intro e he; cases he)

theorem mismatch_append (b rest : List String) : mismatch (b ++ rest) b = (rest, []) := by
  induction b with
  | nil => cases rest <;> rfl
  | cons x more ih => simp [mismatch, ih]

theorem lexically_relative_append (b rest : List String) (h : rest.head? ≠ some "") :
    lexically_relative (b ++ rest) b = if rest = [] then ["."] else rest := by
  unfold lexically_relative
  rw [mismatch_append]
  by_cases hr : rest = []
  · simp [hr]
  · simp [hr, h]

theorem lookup_filter_keep (disk : Disk) (keep : String → Bool) (k : String)
    (hk : keep k = true) : lookup (disk.filter (fun e => keep e.1)) k = lookup disk k := by
  induction disk with
  | nil => rfl
  | cons e rest ih =>
    obtain ⟨p, n⟩ := e
    by_cases hp : keep p = true
    · simp only [List.filter_cons, hp, if_true, lookup, ih]
    · have hpk : ¬ p = k := fun h => hp (h ▸ hk)
      simp only [List.filter_cons, hp, if_false, lookup, hpk, ih, Bool.false_eq_true]

theorem lookup_filter_drop (disk : Disk) (keep : String → Bool) (k : String)
    (hk : keep k = false) : lookup (disk.filter (fun e => keep e.1)) k = none := by
  induction disk with
  | nil => rfl
  | cons e rest ih =>
    obtain ⟨p, n⟩ := e
    by_cases hp : keep p = true
    · have hpk : ¬ p = k := by
        intro h
        rw [h, hk] at hp
        cases hp
      simp only [List.filter_cons, hp, if_true, lookup, hpk, if_false, ih]
    · simp only [List.filter_cons, hp, if_false, ih, Bool.false_eq_true]

/-- What `remove_all` does to the entry of a name: it leaves it, or it removes
it, and then the name is the removed one or lies in the removed directory. -/
theorem remove_all_lookup (env : Env) (disk : Disk) (g k : String) :
    lookup (remove_all env disk g) k = lookup disk k ∨
      (lookup (remove_all env disk g) k = none ∧
        ((k = g ∧ ∃ data, lookup disk g = some (Node.file data)) ∨
          (lookup disk g = some Node.directory ∧
            (canonical env g).isPrefixOf (canonical env k) = true))) := by
  unfold remove_all
  cases hg : lookup disk g with
  | none => left; rfl
  | some n =>
    cases n with
    | file data =>
      simp only
      cases hkeep : (decide (k ≠ g) || env.remove_fails disk g k) with
      | true =>
        left
        exact lookup_filter_keep disk
          (fun p => decide (p ≠ g) || env.remove_fails disk g p) k hkeep
      | false =>
        right
        have hk : k = g := by
          simp only [Bool.or_eq_false_iff, decide_eq_false_iff_not, ne_eq, not_not] at hkeep
          exact hkeep.1
        refine ⟨?_, Or.inl ⟨hk, data, rfl⟩⟩
        exact lookup_filter_drop disk
          (fun p => decide (p ≠ g) || env.remove_fails disk g p) k hkeep
    | directory =>
      simp only
      cases hkeep : (!(canonical env g).isPrefixOf (canonical env k) ||
          env.remove_fails disk g k) with
      | true =>
        left
        exact lookup_filter_keep disk
          (fun p => !(canonical env g).isPrefixOf (canonical env p) ||
            env.remove_fails disk g p) k hkeep
      | false =>
        right
        have hp : (canonical env g).isPrefixOf (canonical env k) = true := by
          simp only [Bool.or_eq_false_iff, Bool.not_eq_false_eq_eq_true] at hkeep
          exact hkeep.1
        refine ⟨?_, Or.inr ⟨trivial, hp⟩⟩
        exact lookup_filter_drop disk
          (fun p => !(canonical env g).isPrefixOf (canonical env p) ||
            env.remove_fails disk g p) k hkeep

theorem remove_all_none (env : Env) (disk : Disk) (g k : String) (h : lookup disk k = none) :
    lookup (remove_all env disk g) k = none := by
  rcases remove_all_lookup env disk g k with h1 | h1
  · rw [h1, h]
  · exact h1.1

/-- A deletion that does not fail removes the entry it is called for. -/
theorem remove_all_self (env : Env) (disk : Disk) (g : String)
    (hfails : env.remove_fails disk g g = false) : lookup (remove_all env disk g) g = none := by
  unfold remove_all
  cases hg : lookup disk g with
  | none => exact hg
  | some n =>
    cases n with
    | file data =>
      simp only
      exact lookup_filter_drop disk
        (fun p => decide (p ≠ g) || env.remove_fails disk g p) g (by simp [hfails])
    | directory =>
      simp only
      exact lookup_filter_drop disk
        (fun p => !(canonical env g).isPrefixOf (canonical env p) ||
          env.remove_fails disk g p) g (by simp [hfails])

theorem lies_below_iff (env : Env) (entry directory : String) (recursive : Bool) :
    lies_below env entry directory recursive = true ↔
      canonical env directory <+: canonical env entry ∧
        (if recursive = true then (canonical env directory).length < (canonical env entry).length
         else (canonical env entry).length = (canonical env directory).length + 1) := by
  unfold lies_below
  cases recursive <;> simp

theorem mem_list_files (env : Env) (disk : Disk) (directory entry : String) (recursive : Bool)
    (h : entry ∈ list_files env disk directory recursive) :
    lies_below env entry directory recursive = true := by
  unfold list_files at h
  exact (List.mem_filter.mp h).2

/-! ### The protected directories -/

theorem relative_of_child (env : Env) (g base name : String) (hname : name ≠ "")
    (h : canonical env g = canonical env base ++ [name]) : relative env g base = [name] := by
  unfold relative
  rw [h, lexically_relative_append _ _ (by simpa using hname)]
  simp

/-- The loop of `cleanup_root_directory` keeps the directory `user` and the
directory `data` of the install root. -/
theorem root_loop_keeps (env : Env) (u : file_updater) (name : String)
    (hname : name = "user" ∨ name = "data") (l : List String) (d : Disk)
    (hl : ∀ g ∈ l, lies_below env g u.base_ false = true)
    (hK : lookup d (path_append u.base_ name) = some Node.directory) :
    lookup (l.foldl
      (fun d file =>
        let entry := relative env file u.base_
        if (path_string entry = "user" ∨ path_string entry = "data") ∧
            directory_exists d file = true then d
        else remove_all env d file) d) (path_append u.base_ name) = some Node.directory := by
  induction l generalizing d with
  | nil => exact hK
  | cons g rest ih =>
    simp only [List.foldl_cons]
    apply ih
    · intro x hx
      exact hl x (List.mem_cons_of_mem _ hx)
    · have hg := (lies_below_iff env g u.base_ false).mp (hl g (List.mem_cons_self _ _))
      simp only [Bool.false_eq_true, if_false] at hg
      have hcK := canonical_append_name env u.base_ name hname
      have hstring : path_string [name] = name := by
        rcases hname with rfl | rfl <;> decide
      -- an entry with the canonical form of the protected directory is skipped
      have hskip : canonical env g = canonical env u.base_ ++ [name] →
          lookup d g = some Node.directory →
          ((path_string (relative env g u.base_) = "user" ∨
            path_string (relative env g u.base_) = "data") ∧
            directory_exists d g = true) := by
        intro hc hd
        have hne : name ≠ "" := by
          rcases hname with rfl | rfl <;> decide
        rw [relative_of_child env g u.base_ name hne hc, hstring]
        exact ⟨hname, by simp [directory_exists, hd]⟩
      by_cases hcond : (path_string (relative env g u.base_) = "user" ∨
          path_string (relative env g u.base_) = "data") ∧ directory_exists d g = true
      · simp only [hcond, and_self, if_true]
        exact hK
      · simp only [hcond, if_false]
        rcases remove_all_lookup env d g (path_append u.base_ name) with h1 | ⟨_, h2 | h2⟩
        · rw [h1]; exact hK
        · obtain ⟨hkg, data, hdata⟩ := h2
          rw [← hkg, hK] at hdata
          cases hdata
        · exfalso
          apply hcond
          apply hskip _ h2.1
          have hp : canonical env g <+: canonical env (path_append u.base_ name) :=
            List.isPrefixOf_iff_prefix.mp h2.2
          rw [hcK] at hp
          apply hp.eq_of_length
          rw [hg.2]
          simp

/-- The loop of `cleanup_data_directory` removes nothing outside the content
directory: an entry whose canonical form is not longer than that of the content
directory stays. -/
theorem data_loop_keeps (env : Env) (legal : List String) (base k : String) (n : Node)
    (l : List String) (d : Disk)
    (hl : ∀ g ∈ l, lies_below env g base true = true)
    (hlen : (canonical env k).length ≤ (canonical env base).length)
    (hK : lookup d k = some n) :
    lookup (l.foldl
      (fun d file =>
        let is_file := is_regular_file d file
        let is_folder := is_directory d file
        if (is_file || is_folder) && is_legal env legal file is_file is_folder then d
        else remove_all env d file) d) k = some n := by
  induction l generalizing d with
  | nil => exact hK
  | cons g rest ih =>
    simp only [List.foldl_cons]
    apply ih
    · intro x hx
      exact hl x (List.mem_cons_of_mem _ hx)
    · have hg := (lies_below_iff env g base true).mp (hl g (List.mem_cons_self _ _))
      simp only [if_true] at hg
      split
      · exact hK
      · rcases remove_all_lookup env d g k with h1 | ⟨_, h2 | h2⟩
        · rw [h1]; exact hK
        · exfalso
          have := hg.2
          rw [← h2.1] at this
          omega
        · exfalso
          have hp : canonical env g <+: canonical env k := List.isPrefixOf_iff_prefix.mp h2.2
          have := hp.length_le
          omega

/-- C6: `cleanup_directories` removes neither the directory `user` nor the
directory `data` of the install root: each of them that is a directory before
the call is one after it, whatever the manifest and the disk. -/
theorem cleanup_directories_keeps (env : Env) (u : file_updater) (w : World)
    (files : List file_info)
    (name : String) (hname : name = "user" ∨ name = "data")
    (h : directory_exists w.disk (path_append u.base_ name) = true) :
    directory_exists (cleanup_directories env u w files).disk (path_append u.base_ name) =
      true := by
  simp only [directory_exists, decide_eq_true_eq] at h ⊢
  unfold cleanup_directories
  split
  · exact h
  · have hroot : lookup (cleanup_root_directory env u w.disk) (path_append u.base_ name) =
        some Node.directory :=
      root_loop_keeps env u name hname _ w.disk
        (fun g hg => mem_list_files env w.disk u.base_ g false hg) h
    show lookup (cleanup_data_directory env u (cleanup_root_directory env u w.disk) files) _ = _
    unfold cleanup_data_directory
    simp only
    split
    · exact hroot
    · apply data_loop_keeps env _ (path_append u.base_ "data") _ _ _ _
        (fun g hg => mem_list_files env _ _ g true hg) _ hroot
      rw [canonical_append_name env u.base_ name hname,
        canonical_append_name env u.base_ "data" (Or.inr rfl)]
      simp

/-! ### Files of the content directory -/

theorem mem_legal_files (env : Env) (base : String) (files : List file_info) (p : String) :
    p ∈ legal_files env base files ↔
      ∃ r ∈ files, r.name ≠ UPDATE_HOST_BINARY ∧ p = absolute env (path_append base r.name) := by
  induction files with
  | nil => simp [legal_files]
  | cons f rest ih =>
    unfold legal_files
    by_cases hf : f.name = UPDATE_HOST_BINARY
    · simp only [hf, ne_eq, not_true_eq_false, if_false, ih, List.mem_cons, exists_eq_or_imp,
        false_and, false_or]
    · simp only [ne_eq, hf, not_false_eq_true, if_true, List.mem_cons, ih, exists_eq_or_imp,
        true_and]

theorem is_legal_iff (env : Env) (legal : List String) (file : String) (is_file is_folder : Bool) :
    is_legal env legal file is_file is_folder = true ↔
      ∃ legal_file ∈ legal,
        (is_folder = true ∧ is_inside_folder env legal_file file = true) ∨
          (is_file = true ∧ path_eq legal_file file = true) := by
  induction legal with
  | nil => simp [is_legal]
  | cons x rest ih =>
    unfold is_legal
    by_cases hx : ((is_folder && is_inside_folder env x file) || (is_file && path_eq x file)) = true
    · simp only [hx, if_true, List.mem_cons, exists_eq_or_imp, true_iff]
      left
      simpa using hx
    · simp only [hx, if_false, ih, List.mem_cons, exists_eq_or_imp, Bool.false_eq_true]
      constructor
      · intro h; exact Or.inr h
      · intro h
        rcases h with h | h
        · exfalso
          apply hx
          simpa using h
        · exact h

/-- A path that a directory contains is inside the folder. -/
theorem is_inside_folder_of_below (env : Env) (legal_file folder : String)
    (h : canonical env folder <+: canonical env legal_file) :
    is_inside_folder env legal_file folder = true := by
  obtain ⟨rest, hrest⟩ := h
  have hhead : rest.head? ≠ some "" := by
    cases rest with
    | nil => simp
    | cons x more =>
      have hx : x ∈ canonical env legal_file := by
        rw [← hrest]
        simp
      have := (canonical_names env legal_file x hx).1
      simpa using this
  unfold is_inside_folder relative
  rw [← hrest, lexically_relative_append _ _ hhead]
  cases rest with
  | nil => simp
  | cons x more =>
    have hx : x ∈ canonical env legal_file := by
      rw [← hrest]
      simp
    have := (canonical_names env legal_file x hx).2.2
    simp [this]

theorem data_loop_gone (env : Env) (legal : List String) (file : String) (l : List String)
    (d : Disk)
    (hK : lookup d file = none) :
    lookup (l.foldl
      (fun d file =>
        let is_file := is_regular_file d file
        let is_folder := is_directory d file
        if (is_file || is_folder) && is_legal env legal file is_file is_folder then d
        else remove_all env d file) d) file = none := by
  induction l generalizing d with
  | nil => exact hK
  | cons g rest ih =>
    simp only [List.foldl_cons]
    apply ih
    split
    · exact hK
    · exact remove_all_none env d g file hK

/-- The example tree after the cleanup: `user` and `data` are still there. -/
theorem cleanup_directories_keeps_witness :
    directory_exists ex_disk_tree (path_append ex_updater.base_ "user") = true ∧
    (cleanup_directories ex_env ex_updater { disk := ex_disk_tree, log := [], relaunches := 0 }
      [ex_a, ex_sub]).disk =
      [("/root/", Node.directory), ("/root/data", Node.directory), ("/root/user", Node.directory),
       ("/root/data/a.txt", Node.file "hello"), ("/root/data/sub", Node.directory),
       ("/root/data/sub/c.txt", Node.file "c")] ∧
    directory_exists
      (cleanup_directories ex_env ex_updater { disk := ex_disk_tree, log := [], relaunches := 0 }
        [ex_a, ex_sub]).disk (path_append ex_updater.base_ "user") = true :=
  ⟨by decide, by decide,
    cleanup_directories_keeps ex_env ex_updater { disk := ex_disk_tree, log := [], relaunches := 0 }
      [ex_a, ex_sub] "user" (Or.inl rfl) (by decide)⟩

/-- C11: for a manifest payload whose top-level JSON value is not an array,
`parse_file_infos` returns the empty sequence, and `run` returns normally and
leaves the world as it was: nothing is pruned, nothing is downloaded and the
listener is not notified, whatever the schedules. -/
theorem run_manifest_not_array (env : Env) (parse : String → Json) (u : file_updater)
    (w : World) (json : String) (host_schedule schedule : List Nat)
    (hget : env.http_get (get_update_file env) = some json)
    (hdoc : ∀ elements, parse json ≠ Json.array elements) :
    parse_file_infos (parse json) = some [] ∧
    get_file_infos env parse = some [] ∧
    run env parse u w host_schedule schedule = some (none, w) := by
  have hparse : parse_file_infos (parse json) = some [] := by
    unfold parse_file_infos
    cases hd : parse json with
    | array elements => exact absurd hd (hdoc elements)
    | null => rfl
    | bool b => rfl
    | int64 n => rfl
    | number => rfl
    | string s => rfl
    | object members => rfl
  have hfiles : get_file_infos env parse = some [] := by
    simp only [get_file_infos, hget, hparse]
  refine ⟨hparse, hfiles, ?_⟩
  simp [run, hfiles, get_outdated_files]

/-- A payload that parses to an object: `run` changes nothing. -/
theorem run_manifest_not_array_witness :
    ex_env_ci.http_get (get_update_file ex_env_ci) = some "manifest" ∧
    parse_file_infos (ex_parse_object "manifest") = some [] ∧
    run ex_env_ci ex_parse_object ex_updater ex_world_exe [0, 1] [2] =
      some (none, ex_world_exe) :=
  ⟨by decide,
    (run_manifest_not_array ex_env_ci ex_parse_object ex_updater ex_world_exe "manifest"
      [0, 1] [2] (by decide) (by intro elements h; cases h)).1,
    (run_manifest_not_array ex_env_ci ex_parse_object ex_updater ex_world_exe "manifest"
      [0, 1] [2] (by decide) (by intro elements h; cases h)).2.2⟩

/-! ### The host binary outside of CI builds -/

theorem is_outdated_file_host (env : Env) (u : file_updater) (disk : Disk) (f : file_info)
    (hci : env.ci_build = false) (hf : f.name = UPDATE_HOST_BINARY) :
    is_outdated_file env u disk f = false := by
  simp [is_outdated_file, hci, hf]

theorem find_host_file_info_eq_none (files : List file_info)
    (h : ∀ f ∈ files, f.name ≠ UPDATE_HOST_BINARY) : find_host_file_info files = none := by
  induction files with
  | nil => rfl
  | cons g rest ih =>
    unfold find_host_file_info
    have hg := h g (List.mem_cons_self _ _)
    simp only [hg, if_false]
    exact ih (fun f hf => h f (List.mem_cons_of_mem _ hf))

theorem outdated_no_host (env : Env) (u : file_updater) (disk : Disk)
    (files : List file_info) (hci : env.ci_build = false) :
    ∀ f ∈ get_outdated_files env u disk files, f.name ≠ UPDATE_HOST_BINARY := by
  intro f hf hname
  rw [outdated_of_mem] at hf
  rw [is_outdated_file_host env u disk f hci hname] at hf
  cases hf.2

/-- Every step leaves the relaunch counter alone and changes the disk only at
target paths of the files. -/
theorem step_frame (env : Env) (u : file_updater) (files : List file_info) (disk0 : Disk)
    (count : Nat) (s s1 : Pool) (t : Nat) (pinv : pool_invariant files s)
    (h0 : s.world.relaunches = count ∧
      ∀ p : String, (∀ f ∈ files, get_drive_filename u f ≠ p) →
        lookup s.world.disk p = lookup disk0 p)
    (h : step env u files s t = some s1) :
    s1.world.relaunches = count ∧
      ∀ p : String, (∀ f ∈ files, get_drive_filename u f ≠ p) →
        lookup s1.world.disk p = lookup disk0 p := by
  rcases step_cases env u files s s1 t h with
    ⟨_, _, rfl⟩ | ⟨_, _, rfl⟩ | ⟨_, _, rfl⟩ | ⟨_, _, _, rfl⟩ | ⟨_, _, _, rfl⟩ |
    ⟨index, file, w, hpc, hu, rfl⟩ | ⟨index, file, e, w, hpc, hu, rfl⟩ | ⟨_, _, _, rfl⟩ |
    ⟨_, _, rfl⟩
  · exact h0
  · exact h0
  · exact h0
  · exact h0
  · exact h0
  · obtain ⟨data, disk, _, hw, hw1⟩ := update_file_none env u s.world w file hu
    have hmem : file ∈ files := List.getElem?_mem (pinv.holds_file t index file (Or.inr hpc))
    subst hw1
    refine ⟨h0.1, ?_⟩
    intro p hp
    show lookup disk p = _
    rw [write_file_lookup_other env _ _ _ p data hw (hp file hmem).symm]
    exact h0.2 p hp
  · have hw1 := update_file_some env u s.world w file e hu
    subst hw1
    exact h0
  · exact h0
  · exact h0

/-- The frame of `update_files`: it requests no relaunch and changes the disk
only at target paths of the files it is given. -/
theorem update_files_frame (env : Env) (u : file_updater) (w : World)
    (files : List file_info) (schedule : List Nat) (r : Option Error × World)
    (h : update_files env u w files schedule = some r) :
    r.2.relaunches = w.relaunches ∧
      ∀ p : String, (∀ f ∈ files, get_drive_filename u f ≠ p) →
        lookup r.2.disk p = lookup w.disk p := by
  have key : ∀ s, update_files_pool env u w files schedule = some s →
      s.world.relaunches = w.relaunches ∧
        ∀ p : String, (∀ f ∈ files, get_drive_filename u f ≠ p) →
          lookup s.world.disk p = lookup w.disk p := by
    intro s hp
    obtain ⟨hexec, _⟩ := update_files_pool_some env u w files schedule s hp
    refine (exec_invariant env u files
      (fun s => pool_invariant files s ∧ (s.world.relaunches = w.relaunches ∧
        ∀ p : String, (∀ f ∈ files, get_drive_filename u f ≠ p) →
          lookup s.world.disk p = lookup w.disk p))
      (fun s t s1 h0 hs => ⟨step_invariant env u files s s1 t h0.1 hs,
        step_frame env u files w.disk w.relaunches s s1 t h0.1 h0.2 hs⟩)
      _ s schedule ?_ hexec).2
    exact ⟨pool_start_invariant files _ _, rfl, fun _ _ => rfl⟩
  unfold update_files at h
  cases hp : update_files_pool env u w files schedule with
  | none => simp [hp] at h
  | some s =>
    simp only [hp] at h
    cases hx : s.exception with
    | none =>
      simp only [hx, Option.some.injEq] at h
      subst h
      exact key s hp
    | some e =>
      simp only [hx, Option.some.injEq] at h
      subst h
      exact key s hp

theorem cleanup_directories_frame (env : Env) (u : file_updater) (w : World)
    (files : List file_info) :
    (cleanup_directories env u w files).relaunches = w.relaunches ∧
      (cleanup_directories env u w files).log = w.log := by
  unfold cleanup_directories
  split <;> exact ⟨rfl, rfl⟩

/-- C13: in a build without `CI_BUILD`, `is_outdated_file` is false for the record
named xlabs.exe on every disk; hence no outdated set holds a host record,
`find_host_file_info` finds nothing in it, `update_host_binary` returns at once
without touching the world, and `run` is the run without that call: it requests
no relaunch, and after the cleanup it changes the disk only at content paths
(base + "data/" + name) of manifest records, so it neither stages nor replaces
the executable. -/
theorem run_leaves_host_binary (env : Env) (parse : String → Json) (u : file_updater)
    (w : World) (host_schedule schedule : List Nat) (hci : env.ci_build = false) :
    (∀ disk f, f.name = UPDATE_HOST_BINARY → is_outdated_file env u disk f = false) ∧
    (∀ disk files,
      (∀ f ∈ get_outdated_files env u disk files, f.name ≠ UPDATE_HOST_BINARY) ∧
      find_host_file_info (get_outdated_files env u disk files) = none) ∧
    (∀ (w1 : World) (files : List file_info) (schedule1 : List Nat),
      update_host_binary env u w1 (get_outdated_files env u w1.disk files) schedule1 =
        some (none, w1)) ∧
    (run env parse u w host_schedule schedule =
      match get_file_infos env parse with
      | none => none
      | some files =>
        if (get_outdated_files env u
            (if files.isEmpty then w else cleanup_directories env u w files).disk files).isEmpty
        then some (none, if files.isEmpty then w else cleanup_directories env u w files)
        else update_files env u (if files.isEmpty then w else cleanup_directories env u w files)
          (get_outdated_files env u
            (if files.isEmpty then w else cleanup_directories env u w files).disk files)
          schedule) ∧
    (∀ files r, get_file_infos env parse = some files →
      run env parse u w host_schedule schedule = some r →
      r.2.relaunches = w.relaunches ∧
      ∀ p : String, (∀ f ∈ files, u.base_ ++ "data/" ++ f.name ≠ p) →
        lookup r.2.disk p =
          lookup (if files.isEmpty then w else cleanup_directories env u w files).disk p) := by
  have hfind : ∀ disk files,
      find_host_file_info (get_outdated_files env u disk files) = none :=
    fun disk files => find_host_file_info_eq_none _ (outdated_no_host env u disk files hci)
  have hhost : ∀ (w1 : World) (files : List file_info) (schedule1 : List Nat),
      update_host_binary env u w1 (get_outdated_files env u w1.disk files) schedule1 =
        some (none, w1) := by
    intro w1 files schedule1
    simp only [update_host_binary, hfind]
  have hrun : run env parse u w host_schedule schedule =
      match get_file_infos env parse with
      | none => none
      | some files =>
        if (get_outdated_files env u
            (if files.isEmpty then w else cleanup_directories env u w files).disk files).isEmpty
        then some (none, if files.isEmpty then w else cleanup_directories env u w files)
        else update_files env u (if files.isEmpty then w else cleanup_directories env u w files)
          (get_outdated_files env u
            (if files.isEmpty then w else cleanup_directories env u w files).disk files)
          schedule := by
    unfold run
    cases hf : get_file_infos env parse with
    | none => rfl
    | some files =>
      simp only [hhost]
  refine ⟨fun disk f hf => is_outdated_file_host env u disk f hci hf,
    fun disk files => ⟨outdated_no_host env u disk files hci, hfind disk files⟩,
    hhost, hrun, ?_⟩
  intro files r hfiles hr
  rw [hrun] at hr
  simp only [hfiles] at hr
  have hrel : (if files.isEmpty then w else cleanup_directories env u w files).relaunches =
      w.relaunches := by
    split
    · rfl
    · exact (cleanup_directories_frame env u w files).1
  by_cases hempty : (get_outdated_files env u
      (if files.isEmpty then w else cleanup_directories env u w files).disk files).isEmpty = true
  · simp only [hempty, if_true, Option.some.injEq] at hr
    subst hr
    exact ⟨hrel, fun _ _ => rfl⟩
  · simp only [hempty, if_false, Bool.false_eq_true] at hr
    obtain ⟨h1, h2⟩ := update_files_frame env u _ _ schedule r hr
    refine ⟨h1.trans hrel, ?_⟩
    intro p hp
    apply h2
    intro f hf
    have hmem := (outdated_of_mem env u _ files f).mp hf
    have hname := outdated_no_host env u _ files hci f hf
    simp only [get_drive_filename, hname, if_false]
    exact hp f hmem.1

/-- A release build whose manifest lists the host binary: `run` downloads `b.txt`
only; the executable, which differs from the record, stays as it is. -/
theorem run_leaves_host_binary_witness :
    get_file_infos ex_env_release ex_parse = some [ex_host, ex_a, ex_b] ∧
    is_outdated_file { ex_env_release with ci_build := true } ex_updater ex_world_exe.disk
      ex_host = true ∧
    run ex_env_release ex_parse ex_updater ex_world_exe [] [0, 0, 0, 0, 0, 0, 0] =
      some (none,
        { disk := ("/root/data/b.txt", Node.file "xyz") :: ("/bin/xlabs.exe", Node.file "old") ::
            ex_disk,
          log := [Event.update_files [ex_b], Event.begin_file ex_b, Event.end_file ex_b,
            Event.done_update],
          relaunches := 0 }) ∧
    find_host_file_info (get_outdated_files ex_env_release ex_updater ex_world_exe.disk
      [ex_host, ex_a, ex_b]) = none :=
  ⟨by decide, by decide, by decide,
    ((run_leaves_host_binary ex_env_release ex_parse ex_updater ex_world_exe []
      [0, 0, 0, 0, 0, 0, 0] (by decide)).2.1 ex_world_exe.disk [ex_host, ex_a, ex_b]).2⟩

/-! ### Directories of the content directory -/

/-- The two lists behind the common beginning that `mismatch` skips. -/
theorem mismatch_common (p b : List String) :
    ∃ common, p = common ++ (mismatch p b).1 ∧ b = common ++ (mismatch p b).2 := by
  induction p generalizing b with
  | nil => exact ⟨[], by cases b <;> simp [mismatch]⟩
  | cons x rest ih =>
    cases b with
    | nil => exact ⟨[], by simp [mismatch]⟩
    | cons y more =>
      by_cases hxy : x = y
      · obtain ⟨common, h1, h2⟩ := ih more
        subst hxy
        refine ⟨x :: common, ?_, ?_⟩
        · simp only [mismatch, if_true, List.cons_append, List.cons.injEq, true_and]
          exact h1
        · simp only [mismatch, if_true, List.cons_append, List.cons.injEq, true_and]
          exact h2
      · exact ⟨[], by simp [mismatch, hxy]⟩

theorem filter_names_all (l : List String) (h : ∀ e ∈ l, e ≠ "" ∧ e ≠ "." ∧ e ≠ "..") :
    l.filter (fun e => decide (e ≠ "" ∧ e ≠ "." ∧ e ≠ "..")) = l ∧
      l.filter (fun e => decide (e = "..")) = [] := by
  constructor
  · apply List.filter_eq_self.mpr
    intro e he
    simpa using h e he
  · apply List.filter_eq_nil_iff.mpr
    intro e he
    simpa using (h e he).2.2

/-- A folder that a path is inside of contains the path. -/
theorem below_of_is_inside_folder (env : Env) (file folder : String)
    (h : is_inside_folder env file folder = true) :
    canonical env folder <+: canonical env file := by
  obtain ⟨common, hp, hb⟩ := mismatch_common (canonical env file) (canonical env folder)
  cases hc : (mismatch (canonical env file) (canonical env folder)).2 with
  | nil =>
    rw [hc, List.append_nil] at hb
    rw [hb]
    exact ⟨_, hp.symm⟩
  | cons x more =>
    exfalso
    have hnames : ∀ e ∈ x :: more, e ≠ "" ∧ e ≠ "." ∧ e ≠ ".." := by
      intro e he
      apply canonical_names env folder e
      rw [hb, hc]
      exact List.mem_append_right _ he
    obtain ⟨hf1, hf2⟩ := filter_names_all (x :: more) hnames
    have hm : mismatch (canonical env file) (canonical env folder) =
        ((mismatch (canonical env file) (canonical env folder)).1, x :: more) := by
      rw [← hc]
    unfold is_inside_folder relative lexically_relative at h
    rw [hm] at h
    simp only [hf1, hf2] at h
    simp [List.replicate_succ] at h

theorem is_inside_folder_iff (env : Env) (file folder : String) :
    is_inside_folder env file folder = true ↔ canonical env folder <+: canonical env file :=
  ⟨below_of_is_inside_folder env file folder, is_inside_folder_of_below env file folder⟩

/-- The loop of `cleanup_data_directory` keeps a directory that contains a legal
file. -/
theorem data_loop_keeps_folder (env : Env) (legal : List String) (folder : String)
    (hlegal : ∃ legal_file ∈ legal, is_inside_folder env legal_file folder = true)
    (l : List String) (d : Disk) (hK : lookup d folder = some Node.directory) :
    lookup (l.foldl
      (fun d file =>
        let is_file := is_regular_file d file
        let is_folder := is_directory d file
        if (is_file || is_folder) && is_legal env legal file is_file is_folder then d
        else remove_all env d file) d) folder = some Node.directory := by
  induction l generalizing d with
  | nil => exact hK
  | cons g rest ih =>
    simp only [List.foldl_cons]
    apply ih
    by_cases hcond : ((is_regular_file d g || is_directory d g) &&
        is_legal env legal g (is_regular_file d g) (is_directory d g)) = true
    · simp only [hcond, if_true]
      exact hK
    · simp only [hcond, if_false, Bool.false_eq_true]
      obtain ⟨lf, hlf, hin⟩ := hlegal
      rcases remove_all_lookup env d g folder with h1 | ⟨_, h2 | h2⟩
      · rw [h1]; exact hK
      · exfalso
        obtain ⟨hfg, data, hd⟩ := h2
        rw [← hfg, hK] at hd
        cases hd
      · exfalso
        apply hcond
        have hfolder : is_directory d g = true := by
          simp [is_directory, directory_exists, h2.1]
        rw [hfolder]
        simp only [Bool.or_true, Bool.true_and]
        rw [is_legal_iff]
        refine ⟨lf, hlf, Or.inl ⟨rfl, ?_⟩⟩
        apply is_inside_folder_of_below
        exact (List.isPrefixOf_iff_prefix.mp h2.2).trans
          (below_of_is_inside_folder env lf folder hin)

/-- The loop of `cleanup_data_directory` removes a listed directory that
contains no legal file. -/
theorem data_loop_removes_folder (env : Env) (legal : List String) (folder : String)
    (hlegal : ∀ legal_file ∈ legal, is_inside_folder env legal_file folder = false)
    (hfails : ∀ d : Disk, env.remove_fails d folder folder = false)
    (l : List String) (d : Disk) (hmem : folder ∈ l)
    (hK : lookup d folder = none ∨ lookup d folder = some Node.directory) :
    lookup (l.foldl
      (fun d file =>
        let is_file := is_regular_file d file
        let is_folder := is_directory d file
        if (is_file || is_folder) && is_legal env legal file is_file is_folder then d
        else remove_all env d file) d) folder = none := by
  induction l generalizing d with
  | nil => cases hmem
  | cons g rest ih =>
    simp only [List.foldl_cons]
    by_cases hg : g = folder
    · subst hg
      apply data_loop_gone
      rcases hK with hK | hK
      · split
        · exact hK
        · exact remove_all_none env d g g hK
      · have hfile : is_regular_file d g = false := by simp [is_regular_file, hK]
        have hfolder : is_directory d g = true := by
          simp [is_directory, directory_exists, hK]
        have hnot : is_legal env legal g false true = false := by
          cases hl : is_legal env legal g false true with
          | false => rfl
          | true =>
            obtain ⟨lf, hlf, h⟩ := (is_legal_iff env legal g false true).mp hl
            rcases h with h | h
            · rw [hlegal lf hlf] at h
              cases h.2
            · cases h.1
        simp only [hfile, hfolder, hnot, Bool.or_true, Bool.and_false, Bool.false_eq_true,
          if_false]
        exact remove_all_self env d g (hfails d)
    · have hrest : folder ∈ rest := by
        rcases List.mem_cons.mp hmem with h | h
        · exact absurd h.symm hg
        · exact h
      apply ih _ hrest
      split
      · exact hK
      · rcases remove_all_lookup env d g folder with h1 | h1
        · rw [h1]; exact hK
        · exact Or.inl h1.1

/-- The loop of `cleanup_data_directory` and a regular file at the place of a
legal file: the file stays as it is, or it is removed at its own turn, which
takes that no legal file equals its name. -/
theorem data_loop_at_legal (env : Env) (legal : List String) (file data : String)
    (hplace : ∃ legal_file ∈ legal, canonical env legal_file = canonical env file)
    (l : List String) (d : Disk)
    (hK : lookup d file = some (Node.file data) ∨
      (lookup d file = none ∧ ∀ legal_file ∈ legal, path_eq legal_file file = false)) :
    lookup (l.foldl
      (fun d file =>
        let is_file := is_regular_file d file
        let is_folder := is_directory d file
        if (is_file || is_folder) && is_legal env legal file is_file is_folder then d
        else remove_all env d file) d) file = some (Node.file data) ∨
    (lookup (l.foldl
      (fun d file =>
        let is_file := is_regular_file d file
        let is_folder := is_directory d file
        if (is_file || is_folder) && is_legal env legal file is_file is_folder then d
        else remove_all env d file) d) file = none ∧
      ∀ legal_file ∈ legal, path_eq legal_file file = false) := by
  induction l generalizing d with
  | nil => exact hK
  | cons g rest ih =>
    simp only [List.foldl_cons]
    apply ih
    by_cases hcond : ((is_regular_file d g || is_directory d g) &&
        is_legal env legal g (is_regular_file d g) (is_directory d g)) = true
    · simp only [hcond, if_true]
      exact hK
    · simp only [hcond, if_false, Bool.false_eq_true]
      rcases hK with hK | hK
      · rcases remove_all_lookup env d g file with h1 | ⟨hnone, h2 | h2⟩
        · rw [h1]; exact Or.inl hK
        · right
          refine ⟨hnone, ?_⟩
          obtain ⟨hfg, data2, hd2⟩ := h2
          subst hfg
          have hfile : is_regular_file d file = true := by simp [is_regular_file, hd2]
          intro lf hlf
          cases heq : path_eq lf file with
          | false => rfl
          | true =>
            exfalso
            apply hcond
            rw [hfile]
            simp only [Bool.true_or, Bool.true_and]
            rw [is_legal_iff]
            exact ⟨lf, hlf, Or.inr ⟨rfl, heq⟩⟩
        · exfalso
          apply hcond
          obtain ⟨lf, hlf, hplace⟩ := hplace
          have hfolder : is_directory d g = true := by
            simp [is_directory, directory_exists, h2.1]
          rw [hfolder]
          simp only [Bool.or_true, Bool.true_and]
          rw [is_legal_iff]
          refine ⟨lf, hlf, Or.inl ⟨rfl, ?_⟩⟩
          apply is_inside_folder_of_below
          rw [hplace]
          exact List.isPrefixOf_iff_prefix.mp h2.2
      · exact Or.inr ⟨remove_all_none env d g file hK.1, hK.2⟩

/-- C12, as stated, fails: the path of the record `xlabs.exe` lies inside the
directory `/root/data/xlabs.exe` (its relative path is `.`), and the directory
is removed with what it holds. -/
theorem host_named_folder_removed :
    is_directory ex_disk_host_folder "/root/data/xlabs.exe" = true ∧
    "/root/data/xlabs.exe" ∈
      list_files ex_env ex_disk_host_folder (path_append ex_updater.base_ "data") true ∧
    relative ex_env
      (absolute ex_env (path_append (path_append ex_updater.base_ "data") ex_host.name))
      "/root/data/xlabs.exe" = ["."] ∧
    is_inside_folder ex_env
      (absolute ex_env (path_append (path_append ex_updater.base_ "data") ex_host.name))
      "/root/data/xlabs.exe" = true ∧
    legal_files ex_env (path_append ex_updater.base_ "data") [ex_host] = [] ∧
    cleanup_data_directory ex_env ex_updater ex_disk_host_folder [ex_host] =
      [("/root/data", Node.directory)] := by
  decide

/-- C12, amended: a path is inside a folder exactly when its relative path is
not empty and does not begin with `..`.  For a directory below the content
directory, `cleanup_data_directory` keeps it if the path
`absolute(content directory / name)` of some manifest record other than the one
of the host binary is inside it; if no such path is inside it, the directory is
removed, unless its deletion fails, so that with deletions that succeed it is
kept if and only if such a path is inside it.  Hence every directory that
contains the path of such a record is kept, the loop calls `remove_all` on no
directory that such a path is inside of, and a regular file at the place of
such a path stays as it is, or is removed at its own turn because no legal file
equals its name. -/
theorem cleanup_data_directory_folders (env : Env) (u : file_updater) (disk : Disk)
    (files : List file_info) (folder : String)
    (hdir : directory_exists disk (path_append u.base_ "data") = true)
    (hlisted : folder ∈ list_files env disk (path_append u.base_ "data") true)
    (hfolder : lookup disk folder = some Node.directory) :
    (∀ file directory, is_inside_folder env file directory = true ↔
      (relative env file directory ≠ [] ∧
        (relative env file directory).head? ≠ some "..")) ∧
    ((∃ r ∈ files, r.name ≠ UPDATE_HOST_BINARY ∧
        is_inside_folder env (absolute env (path_append (path_append u.base_ "data") r.name))
          folder = true) →
      lookup (cleanup_data_directory env u disk files) folder = some Node.directory) ∧
    ((∀ d : Disk, env.remove_fails d folder folder = false) →
      ((¬ ∃ r ∈ files, r.name ≠ UPDATE_HOST_BINARY ∧
          is_inside_folder env (absolute env (path_append (path_append u.base_ "data") r.name))
            folder = true) →
        lookup (cleanup_data_directory env u disk files) folder = none) ∧
      (lookup (cleanup_data_directory env u disk files) folder = some Node.directory ↔
        ∃ r ∈ files, r.name ≠ UPDATE_HOST_BINARY ∧
          is_inside_folder env (absolute env (path_append (path_append u.base_ "data") r.name))
            folder = true)) ∧
    (∀ r ∈ files, r.name ≠ UPDATE_HOST_BINARY →
      canonical env folder <+:
        canonical env (absolute env (path_append (path_append u.base_ "data") r.name)) →
      lookup (cleanup_data_directory env u disk files) folder = some Node.directory) ∧
    (∀ r ∈ files, r.name ≠ UPDATE_HOST_BINARY → ∀ (d : Disk) (g : String),
      is_directory d g = true →
      is_inside_folder env (absolute env (path_append (path_append u.base_ "data") r.name))
        g = true →
      (if (is_regular_file d g || is_directory d g) &&
          is_legal env (legal_files env (path_append u.base_ "data") files) g
            (is_regular_file d g) (is_directory d g)
        then d else remove_all env d g) = d) ∧
    (∀ r ∈ files, r.name ≠ UPDATE_HOST_BINARY → ∀ file data,
      canonical env file =
        canonical env (absolute env (path_append (path_append u.base_ "data") r.name)) →
      lookup disk file = some (Node.file data) →
      lookup (cleanup_data_directory env u disk files) file = some (Node.file data) ∨
      (lookup (cleanup_data_directory env u disk files) file = none ∧
        ∀ r1 ∈ files, r1.name ≠ UPDATE_HOST_BINARY →
          path_eq (absolute env (path_append (path_append u.base_ "data") r1.name))
            file = false)) := by
  have hinside : ∀ file directory, is_inside_folder env file directory = true ↔
      (relative env file directory ≠ [] ∧
        (relative env file directory).head? ≠ some "..") := by
    intro file directory
    unfold is_inside_folder
    cases relative env file directory with
    | nil => simp
    | cons start more => simp
  have hkeep : (∃ r ∈ files, r.name ≠ UPDATE_HOST_BINARY ∧
      is_inside_folder env (absolute env (path_append (path_append u.base_ "data") r.name))
        folder = true) →
      lookup (cleanup_data_directory env u disk files) folder = some Node.directory := by
    rintro ⟨r, hr, hname, hin⟩
    unfold cleanup_data_directory
    simp only [hdir, Bool.not_true, Bool.false_eq_true, if_false]
    apply data_loop_keeps_folder env _ folder _ _ disk hfolder
    exact ⟨_, (mem_legal_files env _ files _).mpr ⟨r, hr, hname, rfl⟩, hin⟩
  have hremove : (∀ d : Disk, env.remove_fails d folder folder = false) →
      (¬ ∃ r ∈ files, r.name ≠ UPDATE_HOST_BINARY ∧
        is_inside_folder env (absolute env (path_append (path_append u.base_ "data") r.name))
          folder = true) →
      lookup (cleanup_data_directory env u disk files) folder = none := by
    intro hfails hno
    unfold cleanup_data_directory
    simp only [hdir, Bool.not_true, Bool.false_eq_true, if_false]
    apply data_loop_removes_folder env _ folder _ hfails _ disk hlisted (Or.inr hfolder)
    intro lf hlf
    obtain ⟨r, hr, hname, rfl⟩ := (mem_legal_files env _ files lf).mp hlf
    cases hin : is_inside_folder env
        (absolute env (path_append (path_append u.base_ "data") r.name)) folder with
    | false => rfl
    | true => exact absurd ⟨r, hr, hname, hin⟩ hno
  refine ⟨hinside, hkeep, ?_, ?_, ?_, ?_⟩
  · intro hfails
    refine ⟨hremove hfails, ?_, hkeep⟩
    intro hkept
    by_contra hno
    rw [hremove hfails hno] at hkept
    cases hkept
  · intro r hr hname hbelow
    exact hkeep ⟨r, hr, hname, is_inside_folder_of_below env _ folder hbelow⟩
  · intro r hr hname d g hg hin
    have hlegal : is_legal env (legal_files env (path_append u.base_ "data") files) g
        (is_regular_file d g) (is_directory d g) = true := by
      rw [is_legal_iff]
      exact ⟨_, (mem_legal_files env _ files _).mpr ⟨r, hr, hname, rfl⟩, Or.inl ⟨hg, hin⟩⟩
    rw [hlegal, hg]
    simp
  · intro r hr hname file data hplace hfile
    unfold cleanup_data_directory
    simp only [hdir, Bool.not_true, Bool.false_eq_true, if_false]
    have := data_loop_at_legal env (legal_files env (path_append u.base_ "data") files)
      file data ⟨_, (mem_legal_files env _ files _).mpr ⟨r, hr, hname, rfl⟩, hplace.symm⟩
      (list_files env disk (path_append u.base_ "data") true) disk (Or.inl hfile)
    rcases this with h | h
    · exact Or.inl h
    · refine Or.inr ⟨h.1, ?_⟩
      intro r1 hr1 hname1
      exact h.2 _ ((mem_legal_files env _ files _).mpr ⟨r1, hr1, hname1, rfl⟩)

/-- The example tree: the directory `sub` of the record `sub/c.txt` is kept, the
directory `old` is removed; under an install root that is given relative to the
current directory the directory `sub` is kept as well. -/
theorem cleanup_data_directory_folders_witness :
    lookup ex_disk_tree "/root/data/sub" = some Node.directory ∧
    lookup ex_disk_tree "/root/data/old" = some Node.directory ∧
    lookup (cleanup_data_directory ex_env ex_updater ex_disk_tree [ex_a, ex_sub])
        "/root/data/sub" = some Node.directory ∧
    lookup (cleanup_data_directory ex_env ex_updater ex_disk_tree [ex_a, ex_sub])
        "/root/data/old" = none ∧
    lookup (cleanup_data_directory ex_env ex_updater_relative ex_disk_relative [ex_a, ex_sub])
        "root/data/sub" = some Node.directory :=
  ⟨by decide, by decide,
    (cleanup_data_directory_folders ex_env ex_updater ex_disk_tree [ex_a, ex_sub]
      "/root/data/sub" (by decide) (by decide) (by decide)).2.1
      ⟨ex_sub, by decide, by decide, by decide⟩,
    ((cleanup_data_directory_folders ex_env ex_updater ex_disk_tree [ex_a, ex_sub]
      "/root/data/old" (by decide) (by decide) (by decide)).2.2.1 (fun _ => rfl)).1
      (by decide),
    (cleanup_data_directory_folders ex_env ex_updater_relative ex_disk_relative [ex_a, ex_sub]
      "root/data/sub" (by decide) (by decide) (by decide)).2.1
      ⟨ex_sub, by decide, by decide, by decide⟩⟩

end Updater
